import Mathlib

/-!
Verification of the Huffman text-compression codec in
src/compressor/compression_methods/huffman.py.

The Python source is shallowly embedded: text streams are lists of
characters, binary streams are lists of byte values (natural numbers
below 256), Python exceptions are an explicit error type, and the
mutable heap list of the tree builder is threaded explicitly.
-/

set_option maxHeartbeats 1000000

namespace Huffman

/-- The Python exceptions that the huffman module can raise.
CompressionMethodError is the typed error of the compressor interface;
the others are builtin Python exceptions. -/
inductive PyError where
  | indexError : PyError
  | keyError : PyError
  | overflowError : PyError
  | attributeError : PyError
  | valueError : String → PyError
  | compressionMethodError : String → PyError
  | unicodeDecodeError : PyError
deriving DecidableEq

/-- HuffmanTreeNode: char (a string), freq, and two optional children.
Python child pointers have type HuffmanTreeNode | None; the nil
constructor plays the role of None, so a node with a single child is
representable, exactly as in Python. The code field assigned by
code_tree is omitted: it is mutated but never read by compress or
decompress. -/
inductive HTree where
  | nil : HTree
  | node (char : String) (freq : Nat) (left : HTree) (right : HTree) : HTree
deriving DecidableEq

/-- The freq attribute (0 for None, which is never accessed in the program). -/
def treeFreq : HTree → Nat
  | .nil => 0
  | .node _ f _ _ => f

/-- The char attribute. -/
def charStr : HTree → String
  | .nil => ""
  | .node c _ _ _ => c

/-- HuffmanTreeNode.__lt__: comparison by frequency only. -/
def nodeLt (a b : HTree) : Bool := treeFreq a < treeFreq b

/-! ### Python dict, modelled as an insertion-ordered association list -/

/-- d[k] lookup returning an Option (first and, with unique keys, only match). -/
def dlookup? {κ α : Type} [DecidableEq κ] (d : List (κ × α)) (k : κ) : Option α :=
  match d with
  | [] => none
  | (k2, v) :: rest => if k2 = k then some v else dlookup? rest k

/-- d[k] = v assignment: updates the existing entry in place, else appends,
preserving Python dict insertion order. -/
def dictSet {κ α : Type} [DecidableEq κ] (d : List (κ × α)) (k : κ) (v : α) : List (κ × α) :=
  match d with
  | [] => [(k, v)]
  | (k2, v2) :: rest => if k2 = k then (k2, v) :: rest else (k2, v2) :: dictSet rest k v

/-- freq_dict[c] = freq_dict.get(c, 0) + 1 -/
def dictIncr (d : List (Char × Nat)) (c : Char) : List (Char × Nat) :=
  dictSet d c ((dlookup? d c).getD 0 + 1)

/-- The freq_dict loop of _count_frequencies. -/
def buildFreqDict (text : List Char) : List (Char × Nat) :=
  text.foldl dictIncr []

/-! ### list.sort(reverse=True) on (int, str) pairs

Python compares the tuples lexicographically: by frequency first, then
by the character (single-character strings compare by code point). The
entries produced by the frequency dict are pairwise distinct (distinct
characters), so the stable descending sort's output is the unique
strictly descending arrangement; an insertion sort by the same total
order yields exactly it. -/

/-- Strict ascending order on (frequency, character) pairs: the Python
tuple comparison, with characters compared by code point. -/
def tupleLt (a b : Nat × Char) : Prop :=
  a.1 < b.1 ∨ (a.1 = b.1 ∧ a.2.toNat < b.2.toNat)

instance (a b : Nat × Char) : Decidable (tupleLt a b) := by
  unfold tupleLt; infer_instance

/-- Insert into a descending-sorted list, keeping it descending. -/
def insertDesc (x : Nat × Char) : List (Nat × Char) → List (Nat × Char)
  | [] => [x]
  | y :: ys => if tupleLt x y then y :: insertDesc x ys else x :: y :: ys

/-- freq_list.sort(reverse=True). -/
def sortDesc (l : List (Nat × Char)) : List (Nat × Char) :=
  l.foldr insertDesc []

/-- Huffman._count_frequencies: build the dict, turn it into a list of
(frequency, character) pairs, sort descending. -/
def countFrequencies (text : List Char) : List (Nat × Char) :=
  sortDesc ((buildFreqDict text).map (fun kv => (kv.2, kv.1)))

/-! ### CPython heapq, specialised to HuffmanTreeNode elements

heapq.heappush and heapq.heappop with the module's private _siftdown
and _siftup, the list being threaded explicitly. Comparisons go through
HuffmanTreeNode.__lt__, i.e. nodeLt. -/

/-- heapq._siftdown(heap, startpos, pos) with newitem = heap[pos] read at entry. -/
def siftdown (heap : List HTree) (startpos pos : Nat) (newitem : HTree) : List HTree :=
  if _h : startpos < pos then
    if nodeLt newitem (heap.getD ((pos - 1) / 2) .nil) then
      siftdown (heap.set pos (heap.getD ((pos - 1) / 2) .nil)) startpos ((pos - 1) / 2) newitem
    else heap.set pos newitem
  else heap.set pos newitem
termination_by pos
decreasing_by omega

/-- The child chosen by the loop of heapq._siftup: the right child when
it exists and the left child is not smaller, else the left child. -/
def sChild (heap : List HTree) (endpos pos : Nat) : Nat :=
  if 2 * pos + 2 < endpos ∧ nodeLt (heap.getD (2 * pos + 1) .nil) (heap.getD (2 * pos + 2) .nil) = false
  then 2 * pos + 2 else 2 * pos + 1

theorem sChild_bounds (heap : List HTree) (endpos pos : Nat) (h : 2 * pos + 1 < endpos) :
    pos < sChild heap endpos pos ∧ sChild heap endpos pos < endpos := by
  unfold sChild
  split <;> omega

/-- The while loop of heapq._siftup: bubble the chosen child up until
reaching a leaf position; returns the updated list and the final pos. -/
def siftupLoop (heap : List HTree) (endpos pos : Nat) : List HTree × Nat :=
  if _h : 2 * pos + 1 < endpos then
    siftupLoop (heap.set pos (heap.getD (sChild heap endpos pos) .nil)) endpos (sChild heap endpos pos)
  else (heap, pos)
termination_by endpos - pos
decreasing_by
  have := sChild_bounds heap endpos pos _h
  omega

/-- heapq._siftup(heap, pos): save heap[pos], run the loop, place the
saved item at the final position and sift it down. -/
def pySiftup (heap : List HTree) (pos : Nat) : List HTree :=
  siftdown
    ((siftupLoop heap heap.length pos).1.set (siftupLoop heap heap.length pos).2 (heap.getD pos .nil))
    pos (siftupLoop heap heap.length pos).2 (heap.getD pos .nil)

/-- heapq.heappush(heap, item). -/
def heappush (heap : List HTree) (item : HTree) : List HTree :=
  siftdown (heap ++ [item]) 0 heap.length item

/-- heapq.heappop(heap): pop the last element; if the list is still
nonempty, move the popped element to the root, sift up and return the
old root. Python raises IndexError on an empty heap; the program never
pops an empty heap, and that case is given an arbitrary total value. -/
def heappop (heap : List HTree) : HTree × List HTree :=
  match heap.dropLast with
  | [] => (heap.getLast?.getD .nil, [])
  | r :: rs => (r, pySiftup ((r :: rs).set 0 (heap.getLast?.getD .nil)) 0)

theorem siftdown_length : ∀ (pos : Nat) (heap : List HTree) (s : Nat) (x : HTree),
    (siftdown heap s pos x).length = heap.length := by
  intro pos
  induction pos using Nat.strong_induction_on with
  | _ pos ih =>
    intro heap s x
    unfold siftdown
    split
    · split
      · rw [ih _ (by omega), List.length_set]
      · exact List.length_set ..
    · exact List.length_set ..

theorem siftupLoop_length : ∀ (n endpos pos : Nat) (heap : List HTree), endpos - pos = n →
    (siftupLoop heap endpos pos).1.length = heap.length := by
  intro n
  induction n using Nat.strong_induction_on with
  | _ n ih =>
    intro endpos pos heap hn
    unfold siftupLoop
    split
    · rename_i hlt
      have hb := sChild_bounds heap endpos pos hlt
      rw [ih (endpos - sChild heap endpos pos) (by omega) endpos _ _ rfl, List.length_set]
    · rfl

theorem pySiftup_length (heap : List HTree) (pos : Nat) :
    (pySiftup heap pos).length = heap.length := by
  unfold pySiftup
  rw [siftdown_length, List.length_set, siftupLoop_length _ _ _ _ rfl]

theorem heappush_length (heap : List HTree) (item : HTree) :
    (heappush heap item).length = heap.length + 1 := by
  unfold heappush
  rw [siftdown_length]
  simp

theorem heappop_snd_length (heap : List HTree) :
    (heappop heap).2.length = heap.length - 1 := by
  unfold heappop
  split
  · rename_i hrest
    have := List.length_dropLast heap
    rw [hrest] at this
    simp at this ⊢
    omega
  · rename_i r rs hrest
    have := List.length_dropLast heap
    rw [hrest] at this
    simp only []
    rw [pySiftup_length, List.length_set]
    simp at this ⊢
    omega

/-! ### The heap operations permute the list

heappush l x is a permutation of x :: l, and heappop returns an element
together with a permutation of the remainder. Proved by counting
occurrences through each index assignment. -/

theorem getD_set_ne {α : Type} (l : List α) (p q : Nat) (x d : α) (h : p ≠ q) :
    (l.set p x).getD q d = l.getD q d := by
  induction l generalizing p q with
  | nil => simp
  | cons b t ih =>
    cases p with
    | zero =>
      cases q with
      | zero => omega
      | succ q => simp
    | succ p =>
      cases q with
      | zero => simp
      | succ q =>
        simp only [List.set_cons_succ, List.getD_cons_succ]
        exact ih p q (by omega)

theorem getD_set_eq {α : Type} (l : List α) (p : Nat) (x d : α) (h : p < l.length) :
    (l.set p x).getD p d = x := by
  induction l generalizing p with
  | nil => simp at h
  | cons b t ih =>
    cases p with
    | zero => simp
    | succ p =>
      simp only [List.set_cons_succ, List.getD_cons_succ]
      exact ih p (by simpa using h)

theorem getD_append_length {α : Type} (l : List α) (x d : α) :
    (l ++ [x]).getD l.length d = x := by
  induction l with
  | nil => simp
  | cons b t ih => simpa using ih

theorem count_set_add {α : Type} [DecidableEq α] (l : List α) (p : Nat) (x d a : α)
    (h : p < l.length) :
    (l.set p x).count a + (if l.getD p d = a then 1 else 0)
      = l.count a + (if x = a then 1 else 0) := by
  induction l generalizing p with
  | nil => simp at h
  | cons b t ih =>
    cases p with
    | zero =>
      simp only [List.set_cons_zero, List.getD_cons_zero, List.count_cons]
      by_cases hb : b = a <;> by_cases hx : x = a <;> simp [hb, hx]
    | succ p =>
      simp only [List.set_cons_succ, List.getD_cons_succ, List.count_cons]
      have := ih p (by simpa using h)
      omega

theorem siftdown_count : ∀ (pos : Nat) (heap : List HTree) (s : Nat) (x a : HTree),
    pos < heap.length →
    (siftdown heap s pos x).count a + (if heap.getD pos .nil = a then 1 else 0)
      = heap.count a + (if x = a then 1 else 0) := by
  intro pos
  induction pos using Nat.strong_induction_on with
  | _ pos ih =>
    intro heap s x a hlen
    unfold siftdown
    split
    · rename_i hsp
      split
      · rename_i hlt
        have hpplen : (pos - 1) / 2 < heap.length := by omega
        have hrec := ih ((pos - 1) / 2) (by omega)
          (heap.set pos (heap.getD ((pos - 1) / 2) .nil)) s x a (by simpa using hpplen)
        rw [getD_set_ne _ _ _ _ _ (by omega)] at hrec
        have hset := count_set_add heap pos (heap.getD ((pos - 1) / 2) .nil) HTree.nil a hlen
        omega
      · exact count_set_add heap pos x .nil a hlen
    · exact count_set_add heap pos x .nil a hlen

theorem siftupLoop_spec : ∀ (n endpos pos : Nat) (heap : List HTree), endpos - pos = n →
    endpos = heap.length → pos < endpos →
    ((siftupLoop heap endpos pos).2 < endpos ∧
     ∀ a, (siftupLoop heap endpos pos).1.count a + (if heap.getD pos .nil = a then 1 else 0)
       = heap.count a
         + (if (siftupLoop heap endpos pos).1.getD (siftupLoop heap endpos pos).2 .nil = a
            then 1 else 0)) := by
  intro n
  induction n using Nat.strong_induction_on with
  | _ n ih =>
    intro endpos pos heap hn hend hpos
    unfold siftupLoop
    split
    · rename_i hlt
      have hb := sChild_bounds heap endpos pos hlt
      have hend' : endpos = (heap.set pos (heap.getD (sChild heap endpos pos) .nil)).length := by
        simpa using hend
      have hrec := ih (endpos - sChild heap endpos pos) (by omega) endpos
        (sChild heap endpos pos) _ rfl hend' (by omega)
      refine ⟨hrec.1, ?_⟩
      intro a
      have h1 := hrec.2 a
      rw [getD_set_ne _ _ _ _ _ (by omega)] at h1
      have h2 := count_set_add heap pos (heap.getD (sChild heap endpos pos) .nil) .nil a (by omega)
      omega
    · exact ⟨by omega, fun a => rfl⟩

theorem pySiftup_count (heap : List HTree) (pos : Nat) (hpos : pos < heap.length) (a : HTree) :
    (pySiftup heap pos).count a = heap.count a := by
  unfold pySiftup
  have hsp := siftupLoop_spec (heap.length - pos) heap.length pos heap rfl rfl hpos
  have hLlen : (siftupLoop heap heap.length pos).1.length = heap.length :=
    siftupLoop_length _ _ _ _ rfl
  have hp2len : (siftupLoop heap heap.length pos).2 < (siftupLoop heap heap.length pos).1.length := by
    omega
  have hsd := siftdown_count (siftupLoop heap heap.length pos).2
    ((siftupLoop heap heap.length pos).1.set (siftupLoop heap heap.length pos).2 (heap.getD pos .nil))
    pos (heap.getD pos .nil) a (by simpa using hp2len)
  rw [getD_set_eq _ _ _ _ hp2len] at hsd
  have hset := count_set_add (siftupLoop heap heap.length pos).1
    (siftupLoop heap heap.length pos).2 (heap.getD pos .nil) .nil a hp2len
  have hloop := hsp.2 a
  omega

theorem count_cons_eq {α : Type} [DecidableEq α] (a b : α) (l : List α) :
    List.count a (b :: l) = List.count a l + (if b = a then 1 else 0) := by
  by_cases h : b = a
  · subst h
    simp [List.count_cons_self]
  · rw [List.count_cons_of_ne (fun hh => h hh.symm), if_neg h]
    omega

theorem count_singleton_eq {α : Type} [DecidableEq α] (a b : α) :
    List.count a [b] = (if b = a then 1 else 0) := by
  simpa using count_cons_eq a b []

theorem heappush_perm (heap : List HTree) (item : HTree) :
    List.Perm (heappush heap item) (item :: heap) := by
  rw [List.perm_iff_count]
  intro a
  unfold heappush
  have hpos : heap.length < (heap ++ [item]).length := by simp
  have hsd := siftdown_count heap.length (heap ++ [item]) 0 item a hpos
  rw [getD_append_length] at hsd
  rw [List.count_append, count_singleton_eq] at hsd
  rw [count_cons_eq]
  omega

theorem heappop_perm (heap : List HTree) (h : heap ≠ []) :
    List.Perm ((heappop heap).1 :: (heappop heap).2) heap := by
  rw [List.perm_iff_count]
  intro a
  have hsplit : heap.dropLast ++ [heap.getLast h] = heap := List.dropLast_append_getLast h
  have hlastD : heap.getLast?.getD .nil = heap.getLast h := by
    rw [List.getLast?_eq_getLast heap h]
    rfl
  unfold heappop
  split
  · rename_i hdl
    rw [hdl] at hsplit
    simp only [hlastD]
    conv_rhs => rw [← hsplit]
    simp
  · rename_i r rs hdl
    rw [hdl] at hsplit
    simp only [hlastD]
    have hcnt := pySiftup_count ((r :: rs).set 0 (heap.getLast h)) 0 (by simp) a
    have hset := count_set_add (r :: rs) 0 (heap.getLast h) .nil a (by simp)
    simp only [List.getD_cons_zero] at hset
    conv_rhs => rw [← hsplit]
    rw [List.count_append, count_singleton_eq, count_cons_eq]
    rw [count_cons_eq] at hset ⊢
    omega

/-- The merged internal node pushed by the loop of _build_huffman_tree. -/
def mergeNode (a b : HTree) : HTree :=
  .node (charStr a ++ charStr b) (treeFreq a + treeFreq b) a b

/-- The merge loop of Huffman._build_huffman_tree: pop the two smallest
trees, push their merge, until at most one tree remains. -/
def buildLoop (nodes : List HTree) : List HTree :=
  if _h : 1 < nodes.length then
    let p1 := heappop nodes
    let p2 := heappop p1.2
    buildLoop (heappush p2.2 (mergeNode p1.1 p2.1))
  else nodes
termination_by nodes.length
decreasing_by
  simp only [heappush_length, heappop_snd_length]
  omega

/-- The single-node tree seeded into the forest for one (freq, char)
entry: HuffmanTreeNode(char, freq, None, None). -/
def leafNode (fc : Nat × Char) : HTree :=
  .node (String.singleton fc.2) fc.1 .nil .nil

/-- Huffman._build_huffman_tree. nil models the None returned for an
empty frequency list. -/
def buildHuffmanTree (freqList : List (Nat × Char)) : HTree :=
  if freqList.isEmpty then .nil
  else (heappop (buildLoop (freqList.foldl (fun hp fc => heappush hp (leafNode fc)) []))).1

theorem heappop_singleton (t : HTree) : heappop [t] = (t, []) := by
  simp [heappop]

theorem buildLoop_length : ∀ (n : Nat) (nodes : List HTree), nodes.length = n → nodes ≠ [] →
    (buildLoop nodes).length = 1 := by
  intro n
  induction n using Nat.strong_induction_on with
  | _ n ih =>
    intro nodes hn hne
    unfold buildLoop
    split
    · rename_i hgt
      have hlenNext : (heappush (heappop (heappop nodes).2).2
          (mergeNode (heappop nodes).1 (heappop (heappop nodes).2).1)).length
          = nodes.length - 1 := by
        rw [heappush_length, heappop_snd_length, heappop_snd_length]
        omega
      refine ih (nodes.length - 1) (by omega) _ hlenNext ?_
      intro he
      rw [he] at hlenNext
      simp at hlenNext
      omega
    · rename_i hle
      have hz : nodes.length ≠ 0 := fun h0 => hne (List.length_eq_zero.mp h0)
      omega

/-- The merge loop preserves any predicate closed under merging, and any
additively-valued measure of the forest. -/
theorem buildLoop_inv_sum {M : Type} [AddCommMonoid M] (P : HTree → Prop) (f : HTree → M)
    (hP : ∀ x y, P x → P y → P (mergeNode x y))
    (hf : ∀ x y, P x → P y → f (mergeNode x y) = f x + f y) :
    ∀ (n : Nat) (nodes : List HTree), nodes.length = n → (∀ t ∈ nodes, P t) →
      (∀ t ∈ buildLoop nodes, P t) ∧ ((buildLoop nodes).map f).sum = (nodes.map f).sum := by
  intro n
  induction n using Nat.strong_induction_on with
  | _ n ih =>
    intro nodes hn hall
    unfold buildLoop
    split
    · rename_i hgt
      have hne1 : nodes ≠ [] := by
        intro he
        rw [he] at hgt
        simp at hgt
      have hperm1 := heappop_perm nodes hne1
      have hlen1 := heappop_snd_length nodes
      have hne2 : (heappop nodes).2 ≠ [] := by
        intro he
        rw [he] at hlen1
        simp at hlen1
        omega
      have hperm2 := heappop_perm _ hne2
      have hall1 : ∀ t ∈ (heappop nodes).1 :: (heappop nodes).2, P t :=
        fun t ht => hall t (hperm1.mem_iff.mp ht)
      have hP1 : P (heappop nodes).1 := hall1 _ (List.mem_cons_self _ _)
      have hall2 : ∀ t ∈ (heappop (heappop nodes).2).1 :: (heappop (heappop nodes).2).2, P t :=
        fun t ht => hall1 _ (List.mem_cons_of_mem _ (hperm2.mem_iff.mp ht))
      have hP2 : P (heappop (heappop nodes).2).1 := hall2 _ (List.mem_cons_self _ _)
      have hPm := hP _ _ hP1 hP2
      have hpermPush := heappush_perm (heappop (heappop nodes).2).2
        (mergeNode (heappop nodes).1 (heappop (heappop nodes).2).1)
      have hallNext : ∀ t ∈ heappush (heappop (heappop nodes).2).2
          (mergeNode (heappop nodes).1 (heappop (heappop nodes).2).1), P t := by
        intro t ht
        rcases List.mem_cons.mp (hpermPush.mem_iff.mp ht) with h | h
        · rw [h]; exact hPm
        · exact hall2 _ (List.mem_cons_of_mem _ h)
      have hlenNext : (heappush (heappop (heappop nodes).2).2
          (mergeNode (heappop nodes).1 (heappop (heappop nodes).2).1)).length
          = nodes.length - 1 := by
        rw [heappush_length, heappop_snd_length, heappop_snd_length]
        omega
      have hrec := ih (nodes.length - 1) (by omega) _ hlenNext hallNext
      refine ⟨hrec.1, ?_⟩
      rw [hrec.2]
      have hsum1 := (hperm1.map f).sum_eq
      have hsum2 := (hperm2.map f).sum_eq
      have hsumPush := (hpermPush.map f).sum_eq
      rw [hsumPush]
      simp only [List.map_cons, List.sum_cons] at hsum1 hsum2 ⊢
      rw [hf _ _ hP1 hP2, ← hsum1, ← hsum2, add_assoc]
    · exact ⟨hall, rfl⟩

theorem foldl_heappush_perm : ∀ (items acc : List HTree),
    List.Perm (items.foldl heappush acc) (acc ++ items) := by
  intro items
  induction items with
  | nil =>
    intro acc
    simp
  | cons x xs ih =>
    intro acc
    have h1 := ih (heappush acc x)
    have h2 : List.Perm (heappush acc x ++ xs) ((x :: acc) ++ xs) :=
      (heappush_perm acc x).append_right xs
    have h3 : List.Perm ((x :: acc) ++ xs) (acc ++ x :: xs) := List.perm_middle.symm
    exact (h1.trans h2).trans h3

/-- Everything _build_huffman_tree guarantees about its result, for a
nonempty frequency list: any merge-closed predicate true of the seeded
leaves holds of the root, and any additive measure of the root equals
its sum over the seeded leaves. -/
theorem buildHuffmanTree_spec {M : Type} [AddCommMonoid M] (P : HTree → Prop) (f : HTree → M)
    (hP : ∀ x y, P x → P y → P (mergeNode x y))
    (hf : ∀ x y, P x → P y → f (mergeNode x y) = f x + f y)
    (freqList : List (Nat × Char)) (hne : freqList ≠ [])
    (hleaf : ∀ fc ∈ freqList, P (leafNode fc)) :
    P (buildHuffmanTree freqList) ∧
      f (buildHuffmanTree freqList) = ((freqList.map leafNode).map f).sum := by
  unfold buildHuffmanTree
  rw [if_neg (by simpa using hne)]
  rw [show freqList.foldl (fun hp fc => heappush hp (leafNode fc)) []
      = (freqList.map leafNode).foldl heappush [] from (List.foldl_map _ _ _ _).symm]
  have hpermInit : List.Perm ((freqList.map leafNode).foldl heappush []) (freqList.map leafNode) := by
    simpa using foldl_heappush_perm (freqList.map leafNode) []
  have hlenInit : ((freqList.map leafNode).foldl heappush []).length = freqList.length := by
    rw [hpermInit.length_eq]
    simp
  have hneInit : (freqList.map leafNode).foldl heappush [] ≠ [] := by
    intro he
    rw [he] at hlenInit
    simp at hlenInit
    exact hne (List.length_eq_zero.mp hlenInit.symm)
  have hallInit : ∀ t ∈ (freqList.map leafNode).foldl heappush [], P t := by
    intro t ht
    obtain ⟨fc, hfc, rfl⟩ := List.mem_map.mp (hpermInit.mem_iff.mp ht)
    exact hleaf fc hfc
  have hmaster := buildLoop_inv_sum P f hP hf _ _ rfl hallInit
  have hblLen := buildLoop_length _ _ rfl hneInit
  obtain ⟨t, ht⟩ : ∃ t, buildLoop ((freqList.map leafNode).foldl heappush []) = [t] := by
    cases hbl : buildLoop ((freqList.map leafNode).foldl heappush []) with
    | nil =>
      rw [hbl] at hblLen
      simp at hblLen
    | cons t ts =>
      rw [hbl] at hblLen
      simp at hblLen
      exact ⟨t, by rw [hblLen]⟩
  rw [ht] at hmaster
  rw [ht, heappop_singleton]
  constructor
  · exact hmaster.1 t (List.mem_singleton_self t)
  · have hsum := hmaster.2
    simp only [List.map_singleton, List.sum_cons, List.sum_nil, add_zero,
      List.map_cons, List.map_nil] at hsum
    rw [hsum]
    exact (hpermInit.map f).sum_eq

/-! ### Code assignment (Huffman._get_codes) -/

/-- The traverse closure of _get_codes, collecting (char, code) pairs in
visit order. A node with any absent child is treated as a leaf, exactly
as the Python test of node.left and node.right does; going left appends
bit 0, going right bit 1. The preceding code_tree call is omitted: it
only mutates the code attributes, which nothing reads. -/
def traverseCodes : HTree → List Bool → List (String × List Bool)
  | .nil, _ => []
  | .node c _ .nil _, code => [(c, code)]
  | .node c _ _ .nil, code => [(c, code)]
  | .node _ _ l r, code =>
    traverseCodes l (code ++ [false]) ++ traverseCodes r (code ++ [true])

/-- Huffman._get_codes: run traverse, the assignments building a dict. -/
def getCodes (huffmanTree : HTree) : List (String × List Bool) :=
  (traverseCodes huffmanTree []).foldl (fun d kv => dictSet d kv.1 kv.2) []

/-- Huffman._encode_text: concatenate the code of each character of the
text in order. A missing dict entry is Python's KeyError. The source's
check of the looked-up code against None is unreachable, since traverse
only ever stores bitarray values. -/
def encodeText (text : List Char) (huffmanCodes : List (String × List Bool)) :
    Except PyError (List Bool) :=
  match text with
  | [] => .ok []
  | c :: rest =>
    match dlookup? huffmanCodes (String.singleton c) with
    | none => .error .keyError
    | some code =>
      match encodeText rest huffmanCodes with
      | .error e => .error e
      | .ok tail => .ok (code ++ tail)

/-! ### Bits, bytes, integers -/

/-- Pack up to eight bits into one byte, most significant bit first (the
big-endian bit order bitarray defaults to). -/
def byteOfBits (bits : List Bool) : Nat :=
  bits.foldl (fun acc b => 2 * acc + (if b then 1 else 0)) 0

/-- bitarray.tobytes(): pack the bits into bytes, the final partial byte
padded at the end with zero bits. -/
def bitsToBytes : List Bool → List Nat
  | [] => []
  | b0 :: b1 :: b2 :: b3 :: b4 :: b5 :: b6 :: b7 :: rest =>
    byteOfBits [b0, b1, b2, b3, b4, b5, b6, b7] :: bitsToBytes rest
  | l => [byteOfBits (l ++ List.replicate (8 - l.length) false)]

/-- One byte unpacked into eight bits, most significant first. -/
def bitsOfByte (b : Nat) : List Bool :=
  [b / 128 % 2 == 1, b / 64 % 2 == 1, b / 32 % 2 == 1, b / 16 % 2 == 1,
   b / 8 % 2 == 1, b / 4 % 2 == 1, b / 2 % 2 == 1, b % 2 == 1]

/-- bitarray.frombytes. -/
def bytesToBits (bytes : List Nat) : List Bool :=
  bytes.foldr (fun b acc => bitsOfByte b ++ acc) []

/-- int.from_bytes(bs, byteorder="big", signed=False). -/
def fromBytesBE (bs : List Nat) : Nat :=
  bs.foldl (fun acc b => 256 * acc + b) 0

/-- The big-endian byte string of v in the given number of bytes. -/
def natToBytesBE : Nat → Nat → List Nat
  | 0, _ => []
  | n + 1, v => natToBytesBE n (v / 256) ++ [v % 256]

/-- v.to_bytes(length, byteorder="big", signed=False): OverflowError
when the value does not fit in the requested number of bytes. -/
def toBytesBE (length v : Nat) : Except PyError (List Nat) :=
  if v < 256 ^ length then .ok (natToBytesBE length v) else .error .overflowError

/-- bitarray.padbits: the number of pad bits that tobytes appends. -/
def padBits (n : Nat) : Nat := (8 - n % 8) % 8

/-! ### UTF-8 -/

/-- UTF-8 encoding of one character. -/
def utf8EncodeChar (c : Char) : List Nat :=
  if c.toNat < 0x80 then [c.toNat]
  else if c.toNat < 0x800 then [0xC0 + c.toNat / 64, 0x80 + c.toNat % 64]
  else if c.toNat < 0x10000 then
    [0xE0 + c.toNat / 4096, 0x80 + c.toNat / 64 % 64, 0x80 + c.toNat % 64]
  else
    [0xF0 + c.toNat / 0x40000, 0x80 + c.toNat / 4096 % 64, 0x80 + c.toNat / 64 % 64,
     0x80 + c.toNat % 64]

/-- str.encode("utf-8") of a character list. -/
def utf8EncodeChars : List Char → List Nat
  | [] => []
  | c :: rest => utf8EncodeChar c ++ utf8EncodeChars rest

/-- The code point of a two-byte UTF-8 sequence. -/
def utf8Cp2 (b0 b1 : Nat) : Char := Char.ofNat ((b0 - 0xC0) * 64 + (b1 - 0x80))

/-- The code point of a three-byte UTF-8 sequence. -/
def utf8Cp3 (b0 b1 b2 : Nat) : Char :=
  Char.ofNat ((b0 - 0xE0) * 4096 + (b1 - 0x80) * 64 + (b2 - 0x80))

/-- The code point of a four-byte UTF-8 sequence. -/
def utf8Cp4 (b0 b1 b2 b3 : Nat) : Char :=
  Char.ofNat ((b0 - 0xF0) * 0x40000 + (b1 - 0x80) * 4096 + (b2 - 0x80) * 64 + (b3 - 0x80))

/-- bytes.decode("utf-8"), strict mode: rejects stray continuation
bytes, truncated sequences, bad continuation ranges, overlong forms,
surrogates and code points beyond 0x10FFFF, as Python does. The
dispatch is arranged by available length first, which is equivalent:
a multi-byte start without enough continuation bytes is an error. -/
def utf8Decode : List Nat → Except PyError (List Char)
  | [] => .ok []
  | [b0] =>
    if b0 < 0x80 then .ok [Char.ofNat b0] else .error .unicodeDecodeError
  | [b0, b1] =>
    if b0 < 0x80 then (utf8Decode [b1]).map (Char.ofNat b0 :: ·)
    else if b0 < 0xC2 then .error .unicodeDecodeError
    else if b0 < 0xE0 then
      if 0x80 ≤ b1 ∧ b1 < 0xC0 then .ok [utf8Cp2 b0 b1] else .error .unicodeDecodeError
    else .error .unicodeDecodeError
  | [b0, b1, b2] =>
    if b0 < 0x80 then (utf8Decode [b1, b2]).map (Char.ofNat b0 :: ·)
    else if b0 < 0xC2 then .error .unicodeDecodeError
    else if b0 < 0xE0 then
      if 0x80 ≤ b1 ∧ b1 < 0xC0 then (utf8Decode [b2]).map (utf8Cp2 b0 b1 :: ·)
      else .error .unicodeDecodeError
    else if b0 < 0xF0 then
      if (if b0 = 0xE0 then 0xA0 else 0x80) ≤ b1 ∧
          b1 < (if b0 = 0xED then 0xA0 else 0xC0) ∧ 0x80 ≤ b2 ∧ b2 < 0xC0 then
        .ok [utf8Cp3 b0 b1 b2]
      else .error .unicodeDecodeError
    else .error .unicodeDecodeError
  | b0 :: b1 :: b2 :: b3 :: rest =>
    if b0 < 0x80 then (utf8Decode (b1 :: b2 :: b3 :: rest)).map (Char.ofNat b0 :: ·)
    else if b0 < 0xC2 then .error .unicodeDecodeError
    else if b0 < 0xE0 then
      if 0x80 ≤ b1 ∧ b1 < 0xC0 then (utf8Decode (b2 :: b3 :: rest)).map (utf8Cp2 b0 b1 :: ·)
      else .error .unicodeDecodeError
    else if b0 < 0xF0 then
      if (if b0 = 0xE0 then 0xA0 else 0x80) ≤ b1 ∧
          b1 < (if b0 = 0xED then 0xA0 else 0xC0) ∧ 0x80 ≤ b2 ∧ b2 < 0xC0 then
        (utf8Decode (b3 :: rest)).map (utf8Cp3 b0 b1 b2 :: ·)
      else .error .unicodeDecodeError
    else if b0 < 0xF5 then
      if (if b0 = 0xF0 then 0x90 else 0x80) ≤ b1 ∧
          b1 < (if b0 = 0xF4 then 0x90 else 0xC0) ∧
          0x80 ≤ b2 ∧ b2 < 0xC0 ∧ 0x80 ≤ b3 ∧ b3 < 0xC0 then
        (utf8Decode rest).map (utf8Cp4 b0 b1 b2 b3 :: ·)
      else .error .unicodeDecodeError
    else .error .unicodeDecodeError

/-! ### Tree serialisation (Huffman._encode_tree / _decode_tree) -/

/-- Huffman._encode_tree: pre-order; a leaf is the byte of "1" followed
by the UTF-8 bytes of its char string, an internal node is the byte of
"0" followed by both children. A single-child node raises ValueError.
The nil case models the AttributeError Python would raise on None,
which compress never triggers. -/
def encodeTree : HTree → Except PyError (List Nat)
  | .nil => .error .attributeError
  | .node c _ .nil .nil => .ok (0x31 :: utf8EncodeChars c.data)
  | .node _ _ .nil _ =>
    .error (.valueError "Broken Huffman tree: tree has a node with a single child.")
  | .node _ _ _ .nil =>
    .error (.valueError "Broken Huffman tree: tree has a node with a single child.")
  | .node _ _ l r =>
    match encodeTree l with
    | .error e => .error e
    | .ok lb =>
      match encodeTree r with
      | .error e => .error e
      | .ok rb => .ok (0x30 :: (lb ++ rb))

/-- The inner decode_tree of Huffman._decode_tree: parse one subtree and
return it with the unconsumed remainder, whose length bound feeds the
termination argument. An exhausted string where a node is expected
yields nil; a leaf tag as the last character makes the read of
tree_str[1] raise IndexError; any tag other than "1" starts an internal
node, as in the source. -/
def dtAux : (l : List Char) → Except PyError (HTree × {r : List Char // r.length ≤ l.length})
  | [] => .ok (.nil, ⟨[], Nat.le_refl 0⟩)
  | c :: rest =>
    if c = '1' then
      match rest with
      | [] => .error .indexError
      | ch :: rest2 =>
        .ok (.node (String.singleton ch) 0 .nil .nil,
          ⟨rest2, by simp only [List.length_cons]; omega⟩)
    else
      match dtAux rest with
      | .error e => .error e
      | .ok (left, ⟨r1, h1⟩) =>
        match dtAux r1 with
        | .error e => .error e
        | .ok (rt, ⟨r2, h2⟩) =>
          .ok (.node "" 0 left rt, ⟨r2, by simp only [List.length_cons]; omega⟩)
termination_by l => l.length
decreasing_by
  · simp only [List.length_cons]
    omega
  · simp only [List.length_cons]
    omega

/-- dtAux with the termination bound erased from the remainder. -/
def dtAuxP (l : List Char) : Except PyError (HTree × List Char) :=
  match dtAux l with
  | .error e => .error e
  | .ok p => .ok (p.1, p.2.val)

/-- Huffman._decode_tree: parse and return only the tree, discarding
the remainder. -/
def decodeTree (treeStr : List Char) : Except PyError HTree :=
  match dtAuxP treeStr with
  | .error e => .error e
  | .ok p => .ok p.1

/-! ### Text decoding (Huffman._decode_text, Huffman._decode) -/

/-- Both children absent? -/
def isLeaf : HTree → Bool
  | .node _ _ .nil .nil => true
  | _ => false

/-- The left attribute. -/
def treeLeft : HTree → HTree
  | .nil => .nil
  | .node _ _ l _ => l

/-- The right attribute. -/
def treeRight : HTree → HTree
  | .nil => .nil
  | .node _ _ _ r => r

/-- The loop of Huffman._decode_text: walk one edge per bit (0 goes
left, 1 goes right), stop silently on an absent child, emit the node's
char and restart from the root at each leaf. -/
def decodeTextGo (root : HTree) : List Bool → HTree → List String → List String
  | [], _, result => result
  | bit :: rest, current, result =>
    match (if bit then treeRight current else treeLeft current) with
    | .nil => result
    | .node c f l r =>
      if isLeaf (.node c f l r) then
        decodeTextGo root rest root (result ++ [c])
      else
        decodeTextGo root rest (.node c f l r) result

/-- Huffman._decode_text. -/
def decodeText (encodedText : List Bool) (huffmanTree : HTree) : String :=
  String.join (decodeTextGo huffmanTree encodedText huffmanTree [])

/-- Huffman._decode: reconstruct the tree (ValueError when it is absent)
and decode the payload bits against it. -/
def decode (treeStr : List Char) (encodedText : List Bool) : Except PyError String :=
  match decodeTree treeStr with
  | .error e => .error e
  | .ok .nil => .error (.valueError "Invalid tree string")
  | .ok (.node c f l r) => .ok (decodeText encodedText (.node c f l r))

/-! ### Container (Huffman._read_headers, compress, decompress) -/

/-- Huffman._read_headers: read the 16-byte header (fewer bytes when the
stream is shorter, as read does), parse both fields as big-endian
unsigned integers, validate them against the remainder of the stream and
seek back to offset 16. The source's two negative checks can never fire
on unsigned values. -/
def readHeaders (binIn : List Nat) : Except PyError (Nat × Nat) :=
  if 8 ≤ fromBytesBE ((binIn.take 16).take 8)
      ∨ (binIn.drop 16).length < fromBytesBE ((binIn.take 16).drop 8) then
    .error (.compressionMethodError
      "Invalid header: padding_len or tree_len out of bounds. Make sure the file is a valid compressed file.")
  else .ok (fromBytesBE ((binIn.take 16).take 8), fromBytesBE ((binIn.take 16).drop 8))

/-- Huffman.compress: the bytes written to bin_out, in order. An empty
frequency list gives no tree and nothing is written. The source's check
of encoded_text against None is unreachable, and its handler for
UnicodeDecodeError while reading text_in has no counterpart on an
in-memory character list. -/
def compress (textIn : List Char) : Except PyError (List Nat) :=
  match buildHuffmanTree (countFrequencies textIn) with
  | .nil => .ok []
  | .node c f l r =>
    match encodeText textIn (getCodes (.node c f l r)) with
    | .error e => .error e
    | .ok encodedText =>
      match encodeTree (.node c f l r) with
      | .error e => .error e
      | .ok encodedTree =>
        match toBytesBE 8 encodedTree.length with
        | .error e => .error e
        | .ok treeLenInfo =>
          match toBytesBE 8 (padBits encodedText.length) with
          | .error e => .error e
          | .ok paddingLenInfo =>
            .ok (paddingLenInfo ++ treeLenInfo ++ encodedTree ++ bitsToBytes encodedText)

/-- Huffman.decompress: the strings written to text_out, together with
the error raised, if any. Reading mirrors the stream positions: bytes
16 to 16+tree_len hold the tree, the rest is the payload, from which the
padding bits are sliced off before decoding. -/
def decompress (binIn : List Nat) : List String × Option PyError :=
  match readHeaders binIn with
  | .error e => ([], some e)
  | .ok pt =>
    match utf8Decode ((binIn.drop 16).take pt.2) with
    | .error e => ([], some e)
    | .ok treeStr =>
      match decode treeStr
        (if 0 < pt.1
          then (bytesToBits ((binIn.drop 16).drop pt.2)).take
            ((bytesToBits ((binIn.drop 16).drop pt.2)).length - pt.1)
          else bytesToBits ((binIn.drop 16).drop pt.2)) with
      | .error e => ([], some e)
      | .ok text => ([text], none)

/-! ### Predicates used by the theorems -/

/-- Every node has zero or two children and every leaf is labelled by a
single character; all trees built by _build_huffman_tree satisfy this. -/
def wfTree : HTree → Prop
  | .nil => False
  | .node c _ .nil .nil => c.length = 1
  | .node _ _ l r => wfTree l ∧ wfTree r

/-- The character string whose UTF-8 encoding _encode_tree emits for a
well-formed tree. -/
def treeChars : HTree → List Char
  | .nil => []
  | .node c _ .nil .nil => '1' :: c.data
  | .node _ _ l r => '0' :: (treeChars l ++ treeChars r)

/-- The tree _decode_tree reconstructs from a well-formed tree's
encoding: same shape, same leaf characters, frequencies zeroed and
internal labels emptied. -/
def stripT : HTree → HTree
  | .nil => .nil
  | .node c _ .nil .nil => .node c 0 .nil .nil
  | .node _ _ l r => .node "" 0 (stripT l) (stripT r)

/-- Identical branching structure with identical characters at
corresponding leaves; frequencies and internal labels are ignored. -/
def sameShape : HTree → HTree → Bool
  | .nil, .nil => true
  | .node c1 _ .nil .nil, .node c2 _ .nil .nil => c1 == c2
  | .node _ _ l1 r1, .node _ _ l2 r2 => sameShape l1 l2 && sameShape r1 r2
  | _, _ => false

/-- Each internal node's frequency is the sum of its children's. -/
def freqOk : HTree → Prop
  | .nil => True
  | .node _ _ .nil .nil => True
  | .node _ f l r => f = treeFreq l + treeFreq r ∧ freqOk l ∧ freqOk r

/-- Sum of the frequencies stored at the leaves. -/
def leafFreqSum : HTree → Nat
  | .nil => 0
  | .node _ f .nil .nil => f
  | .node _ _ l r => leafFreqSum l + leafFreqSum r

/-- Is the first bit list an initial segment of the second? -/
def isPre (a b : List Bool) : Bool := a == b.take a.length

instance {ε α : Type} [DecidableEq ε] [DecidableEq α] : DecidableEq (Except ε α) :=
  fun a b =>
    match a, b with
    | .ok x, .ok y =>
      if h : x = y then .isTrue (by rw [h]) else .isFalse (by intro hc; cases hc; exact h rfl)
    | .error x, .error y =>
      if h : x = y then .isTrue (by rw [h]) else .isFalse (by intro hc; cases hc; exact h rfl)
    | .ok _, .error _ => .isFalse (fun hc => Except.noConfusion hc)
    | .error _, .ok _ => .isFalse (fun hc => Except.noConfusion hc)

/-! ### Single-step unfolding equations for the well-founded recursions -/

theorem siftdown_stop (heap : List HTree) (s pos : Nat) (x : HTree) (h : ¬ s < pos) :
    siftdown heap s pos x = heap.set pos x := by
  conv_lhs => rw [siftdown.eq_def]
  rw [dif_neg h]

theorem siftdown_go (heap : List HTree) (s pos : Nat) (x : HTree) (h : s < pos) :
    siftdown heap s pos x =
      if nodeLt x (heap.getD ((pos - 1) / 2) .nil) then
        siftdown (heap.set pos (heap.getD ((pos - 1) / 2) .nil)) s ((pos - 1) / 2) x
      else heap.set pos x := by
  conv_lhs => rw [siftdown.eq_def]
  rw [dif_pos h]

theorem siftupLoop_stop (heap : List HTree) (endpos pos : Nat) (h : ¬ 2 * pos + 1 < endpos) :
    siftupLoop heap endpos pos = (heap, pos) := by
  conv_lhs => rw [siftupLoop.eq_def]
  rw [dif_neg h]

theorem buildLoop_stop (nodes : List HTree) (h : ¬ 1 < nodes.length) :
    buildLoop nodes = nodes := by
  conv_lhs => rw [buildLoop.eq_def]
  rw [dif_neg h]

theorem buildLoop_go (nodes : List HTree) (h : 1 < nodes.length) :
    buildLoop nodes = buildLoop (heappush (heappop (heappop nodes).2).2
      (mergeNode (heappop nodes).1 (heappop (heappop nodes).2).1)) := by
  conv_lhs => rw [buildLoop.eq_def]
  rw [dif_pos h]

/-! ### Properties of the frequency dict -/

theorem dlookup_dictSet_self {κ α : Type} [DecidableEq κ] (d : List (κ × α)) (k : κ) (v : α) :
    dlookup? (dictSet d k v) k = some v := by
  induction d with
  | nil => simp [dictSet, dlookup?]
  | cons kv rest ih =>
    obtain ⟨k2, v2⟩ := kv
    by_cases h : k2 = k <;> simp [dictSet, dlookup?, h, ih]

theorem dlookup_dictSet_ne {κ α : Type} [DecidableEq κ] (d : List (κ × α)) (k k2 : κ) (v : α)
    (h : k ≠ k2) : dlookup? (dictSet d k v) k2 = dlookup? d k2 := by
  induction d with
  | nil => simp [dictSet, dlookup?, h]
  | cons kv rest ih =>
    obtain ⟨k3, v3⟩ := kv
    by_cases h3 : k3 = k
    · subst h3
      simp [dictSet, dlookup?, h]
    · simp [dictSet, dlookup?, h3, ih]

theorem dictIncr_cons_eq (c : Char) (v : Nat) (rest : List (Char × Nat)) :
    dictIncr ((c, v) :: rest) c = (c, v + 1) :: rest := by
  simp [dictIncr, dictSet, dlookup?]

theorem dictIncr_cons_ne (k c : Char) (v : Nat) (rest : List (Char × Nat)) (h : k ≠ c) :
    dictIncr ((k, v) :: rest) c = (k, v) :: dictIncr rest c := by
  simp [dictIncr, dictSet, dlookup?, h]

theorem dictIncr_nil (c : Char) : dictIncr [] c = [(c, 1)] := by
  simp [dictIncr, dictSet, dlookup?]

theorem dlookup_dictIncr (d : List (Char × Nat)) (c k : Char) :
    dlookup? (dictIncr d c) k
      = if k = c then some ((dlookup? d c).getD 0 + 1) else dlookup? d k := by
  by_cases h : k = c
  · subst h
    rw [if_pos rfl]
    exact dlookup_dictSet_self d k _
  · rw [if_neg h]
    exact dlookup_dictSet_ne d c k _ (fun hc => h hc.symm)

theorem keys_dictIncr (d : List (Char × Nat)) (c k : Char) :
    (k ∈ (dictIncr d c).map Prod.fst ↔ k ∈ d.map Prod.fst ∨ k = c) := by
  induction d with
  | nil =>
    rw [dictIncr_nil]
    simp
  | cons kv rest ih =>
    obtain ⟨k2, v2⟩ := kv
    by_cases h : k2 = c
    · subst h
      rw [dictIncr_cons_eq]
      simp
      tauto
    · rw [dictIncr_cons_ne _ _ _ _ h]
      simp at ih ⊢
      tauto

theorem nodup_keys_dictIncr (d : List (Char × Nat)) (c : Char)
    (h : (d.map Prod.fst).Nodup) : ((dictIncr d c).map Prod.fst).Nodup := by
  induction d with
  | nil =>
    rw [dictIncr_nil]
    simp
  | cons kv rest ih =>
    obtain ⟨k2, v2⟩ := kv
    simp only [List.map_cons, List.nodup_cons] at h
    by_cases hc : k2 = c
    · subst hc
      rw [dictIncr_cons_eq]
      simp only [List.map_cons, List.nodup_cons]
      exact h
    · rw [dictIncr_cons_ne _ _ _ _ hc]
      simp only [List.map_cons, List.nodup_cons]
      refine ⟨?_, ih h.2⟩
      intro hmem
      rcases (keys_dictIncr rest c k2).mp hmem with hm | he
      · exact h.1 hm
      · exact hc he

theorem dcount_dictIncr (d : List (Char × Nat)) (c k : Char) :
    (dlookup? (dictIncr d c) k).getD 0
      = (dlookup? d k).getD 0 + (if k = c then 1 else 0) := by
  rw [dlookup_dictIncr]
  by_cases h : k = c <;> simp [h]

theorem dcount_foldl_dictIncr : ∀ (text : List Char) (d : List (Char × Nat)) (k : Char),
    (dlookup? (text.foldl dictIncr d) k).getD 0
      = (dlookup? d k).getD 0 + List.count k text := by
  intro text
  induction text with
  | nil =>
    intro d k
    simp
  | cons c rest ih =>
    intro d k
    rw [List.foldl_cons, ih, dcount_dictIncr, count_cons_eq]
    by_cases h : k = c
    · rw [if_pos h, if_pos h.symm]
      omega
    · rw [if_neg h, if_neg (fun hc => h hc.symm)]
      omega

theorem keys_foldl_dictIncr : ∀ (text : List Char) (d : List (Char × Nat)) (k : Char),
    (k ∈ (text.foldl dictIncr d).map Prod.fst ↔ k ∈ d.map Prod.fst ∨ k ∈ text) := by
  intro text
  induction text with
  | nil =>
    intro d k
    simp
  | cons c rest ih =>
    intro d k
    rw [List.foldl_cons, ih]
    rw [keys_dictIncr]
    simp
    tauto

theorem nodup_keys_foldl_dictIncr : ∀ (text : List Char) (d : List (Char × Nat)),
    (d.map Prod.fst).Nodup → ((text.foldl dictIncr d).map Prod.fst).Nodup := by
  intro text
  induction text with
  | nil =>
    intro d h
    simpa using h
  | cons c rest ih =>
    intro d h
    exact ih _ (nodup_keys_dictIncr d c h)

theorem sum_values_dictIncr (d : List (Char × Nat)) (c : Char) :
    ((dictIncr d c).map Prod.snd).sum = (d.map Prod.snd).sum + 1 := by
  induction d with
  | nil =>
    rw [dictIncr_nil]
    simp
  | cons kv rest ih =>
    obtain ⟨k2, v2⟩ := kv
    by_cases h : k2 = c
    · subst h
      rw [dictIncr_cons_eq]
      simp
      omega
    · rw [dictIncr_cons_ne _ _ _ _ h]
      simp [ih]
      omega

theorem sum_values_foldl_dictIncr : ∀ (text : List Char) (d : List (Char × Nat)),
    ((text.foldl dictIncr d).map Prod.snd).sum = (d.map Prod.snd).sum + text.length := by
  intro text
  induction text with
  | nil =>
    intro d
    simp
  | cons c rest ih =>
    intro d
    rw [List.foldl_cons, ih, sum_values_dictIncr]
    simp
    omega

theorem dlookup_none_iff {κ α : Type} [DecidableEq κ] (d : List (κ × α)) (k : κ) :
    dlookup? d k = none ↔ k ∉ d.map Prod.fst := by
  induction d with
  | nil => simp [dlookup?]
  | cons kv rest ih =>
    obtain ⟨k2, v2⟩ := kv
    by_cases h : k2 = k
    · subst h
      simp [dlookup?]
    · simp only [dlookup?, if_neg h, ih, List.map_cons, List.mem_cons]
      constructor
      · intro hk
        intro hc
        rcases hc with hc | hc
        · exact h hc.symm
        · exact hk hc
      · intro hk
        intro hc
        exact hk (Or.inr hc)

theorem mem_iff_dlookup {κ α : Type} [DecidableEq κ] (d : List (κ × α)) (k : κ) (v : α) :
    (d.map Prod.fst).Nodup → ((k, v) ∈ d ↔ dlookup? d k = some v) := by
  induction d with
  | nil =>
    intro _
    simp [dlookup?]
  | cons kv rest ih =>
    intro hnd
    obtain ⟨k2, v2⟩ := kv
    simp only [List.map_cons, List.nodup_cons] at hnd
    by_cases h : k2 = k
    · subst h
      constructor
      · intro hc
        rcases List.mem_cons.mp hc with hc | hc
        · have hv := ((Prod.mk.injEq _ _ _ _).mp hc).2
          subst hv
          simp [dlookup?]
        · exact absurd (List.mem_map.mpr ⟨(k2, v), hc, rfl⟩) hnd.1
      · intro hc
        have hl : dlookup? ((k2, v2) :: rest) k2 = some v2 := by simp [dlookup?]
        rw [hl] at hc
        have hv := Option.some_inj.mp hc
        subst hv
        exact List.mem_cons_self _ _
    · simp only [dlookup?, if_neg h, List.mem_cons]
      rw [ih hnd.2]
      constructor
      · intro hc
        rcases hc with hc | hc
        · exact absurd ((Prod.mk.injEq _ _ _ _).mp hc).1.symm h
        · exact hc
      · intro hc
        right
        exact hc

/-! ### The descending sort -/

theorem tupleLt_asymm {a b : Nat × Char} (h : tupleLt a b) : ¬ tupleLt b a := by
  unfold tupleLt at *
  omega

theorem tupleLt_not_not_trans {a b c : Nat × Char} (h1 : ¬ tupleLt a b) (h2 : ¬ tupleLt b c) :
    ¬ tupleLt a c := by
  unfold tupleLt at *
  omega

theorem char_toNat_inj {c1 c2 : Char} (h : c1.toNat = c2.toNat) : c1 = c2 := by
  rw [← Char.ofNat_toNat c1, ← Char.ofNat_toNat c2, h]

theorem tupleLt_total (a b : Nat × Char) : tupleLt a b ∨ a = b ∨ tupleLt b a := by
  unfold tupleLt
  rcases Nat.lt_trichotomy a.1 b.1 with h | h | h
  · exact Or.inl (Or.inl h)
  · rcases Nat.lt_trichotomy a.2.toNat b.2.toNat with h2 | h2 | h2
    · exact Or.inl (Or.inr ⟨h, h2⟩)
    · exact Or.inr (Or.inl (Prod.ext h (char_toNat_inj h2)))
    · exact Or.inr (Or.inr (Or.inr ⟨h.symm, h2⟩))
  · exact Or.inr (Or.inr (Or.inl h))

theorem insertDesc_perm (x : Nat × Char) : ∀ l, List.Perm (insertDesc x l) (x :: l) := by
  intro l
  induction l with
  | nil => exact List.Perm.refl _
  | cons y ys ih =>
    simp only [insertDesc]
    by_cases h : tupleLt x y
    · rw [if_pos h]
      exact (ih.cons y).trans (List.Perm.swap x y ys)
    · rw [if_neg h]

theorem sortDesc_perm (l : List (Nat × Char)) : List.Perm (sortDesc l) l := by
  induction l with
  | nil => exact List.Perm.refl _
  | cons a l ih =>
    have heq : sortDesc (a :: l) = insertDesc a (sortDesc l) := rfl
    rw [heq]
    exact (insertDesc_perm a _).trans (ih.cons a)

theorem insertDesc_sorted (x : Nat × Char) : ∀ (l : List (Nat × Char)),
    l.Pairwise (fun a b => ¬ tupleLt a b) →
    (insertDesc x l).Pairwise (fun a b => ¬ tupleLt a b) := by
  intro l
  induction l with
  | nil =>
    intro _
    simp [insertDesc]
  | cons y ys ih =>
    intro hl
    rcases List.pairwise_cons.mp hl with ⟨hy, hys⟩
    simp only [insertDesc]
    by_cases h : tupleLt x y
    · rw [if_pos h]
      rw [List.pairwise_cons]
      refine ⟨?_, ih hys⟩
      intro z hz
      rcases List.mem_cons.mp ((insertDesc_perm x ys).mem_iff.mp hz) with hzx | hzys
      · rw [hzx]
        exact tupleLt_asymm h
      · exact hy z hzys
    · rw [if_neg h]
      rw [List.pairwise_cons]
      refine ⟨?_, hl⟩
      intro z hz
      rcases List.mem_cons.mp hz with hzy | hzys
      · rw [hzy]
        exact h
      · exact tupleLt_not_not_trans h (hy z hzys)

theorem sortDesc_sorted (l : List (Nat × Char)) :
    (sortDesc l).Pairwise (fun a b => ¬ tupleLt a b) := by
  induction l with
  | nil => simp [sortDesc]
  | cons a l ih => exact insertDesc_sorted a _ ih

/-! ### Claim C9 -/

theorem nodup_keys_buildFreqDict (text : List Char) :
    ((buildFreqDict text).map Prod.fst).Nodup :=
  nodup_keys_foldl_dictIncr text [] (by simp)

theorem buildFreqDict_eq (text : List Char) : buildFreqDict text = text.foldl dictIncr [] := rfl

theorem mem_countFrequencies (text : List Char) (f : Nat) (c : Char) :
    (f, c) ∈ countFrequencies text ↔ (c ∈ text ∧ f = List.count c text) := by
  unfold countFrequencies
  rw [(sortDesc_perm _).mem_iff]
  constructor
  · intro hm
    obtain ⟨kv, hkv, heq⟩ := List.mem_map.mp hm
    have h1 : kv.1 = c := congrArg Prod.snd heq
    have h2 : kv.2 = f := congrArg Prod.fst heq
    have hkvE : kv = (c, f) := Prod.ext h1 h2
    rw [hkvE] at hkv
    have hlook := (mem_iff_dlookup _ _ _ (nodup_keys_buildFreqDict text)).mp hkv
    have hkeys : c ∈ (buildFreqDict text).map Prod.fst := by
      by_contra hc
      rw [← dlookup_none_iff] at hc
      rw [hc] at hlook
      exact Option.noConfusion hlook
    constructor
    · rcases (keys_foldl_dictIncr text [] c).mp (by rw [← buildFreqDict_eq]; exact hkeys) with h | h
      · simp at h
      · exact h
    · have hd := dcount_foldl_dictIncr text [] c
      rw [← buildFreqDict_eq, hlook] at hd
      simp only [dlookup?, Option.getD_some, Option.getD_none] at hd
      omega
  · rintro ⟨hc, hf⟩
    have hkeys : c ∈ (buildFreqDict text).map Prod.fst := by
      rw [buildFreqDict_eq]
      exact (keys_foldl_dictIncr text [] c).mpr (Or.inr hc)
    cases hl : dlookup? (buildFreqDict text) c with
    | none => exact absurd hkeys ((dlookup_none_iff _ _).mp hl)
    | some v =>
      have hd := dcount_foldl_dictIncr text [] c
      rw [← buildFreqDict_eq, hl] at hd
      simp only [dlookup?, Option.getD_some, Option.getD_none] at hd
      have hmem := (mem_iff_dlookup _ _ _ (nodup_keys_buildFreqDict text)).mpr hl
      apply List.mem_map.mpr
      refine ⟨(c, v), hmem, ?_⟩
      have hv : v = f := by omega
      rw [hv]

/-- Claim C9: _count_frequencies returns exactly one (frequency,
character) pair per distinct character, the frequency being that
character's occurrence count, sorted by strictly descending frequency
with ties broken by descending character code point; the empty text
yields the empty list. -/
theorem count_frequencies_spec (text : List Char) :
    ((countFrequencies text).map Prod.snd).Nodup
    ∧ (∀ f c, ((f, c) ∈ countFrequencies text ↔ c ∈ text ∧ f = List.count c text))
    ∧ (countFrequencies text).Pairwise (fun a b => tupleLt b a)
    ∧ (text = [] → countFrequencies text = []) := by
  have hsnd : ((countFrequencies text).map Prod.snd).Nodup := by
    have hperm := (sortDesc_perm ((buildFreqDict text).map (fun kv => (kv.2, kv.1)))).map Prod.snd
    unfold countFrequencies
    rw [hperm.nodup_iff]
    rw [List.map_map]
    have hcomp : (Prod.snd ∘ fun kv : Char × Nat => (kv.2, kv.1)) = Prod.fst := rfl
    rw [hcomp]
    exact nodup_keys_buildFreqDict text
  refine ⟨hsnd, fun f c => mem_countFrequencies text f c, ?_, ?_⟩
  · have hnodup : (countFrequencies text).Nodup := hsnd.of_map
    have hsorted := sortDesc_sorted ((buildFreqDict text).map (fun kv => (kv.2, kv.1)))
    have hboth := hsorted.and hnodup
    refine hboth.imp ?_
    rintro a b ⟨hnlt, hne⟩
    rcases tupleLt_total a b with h | h | h
    · exact absurd h hnlt
    · exact absurd h hne
    · exact h
  · intro ht
    rw [ht]
    rfl

/-! ### Claim C8 -/

theorem sum_fst_countFrequencies (text : List Char) :
    ((countFrequencies text).map Prod.fst).sum = text.length := by
  unfold countFrequencies
  have hperm := (sortDesc_perm ((buildFreqDict text).map (fun kv => (kv.2, kv.1)))).map Prod.fst
  rw [hperm.sum_eq]
  rw [List.map_map]
  have hcomp : (Prod.fst ∘ fun kv : Char × Nat => (kv.2, kv.1)) = Prod.snd := rfl
  rw [hcomp]
  rw [buildFreqDict_eq]
  have := sum_values_foldl_dictIncr text []
  simpa using this

theorem countFrequencies_nil_iff (text : List Char) :
    countFrequencies text = [] → text = [] := by
  intro htext
  by_contra hne
  obtain ⟨c, hc⟩ := List.exists_mem_of_ne_nil text hne
  have hmem := (mem_countFrequencies text (List.count c text) c).mpr ⟨hc, rfl⟩
  rw [htext] at hmem
  exact absurd hmem (List.not_mem_nil _)

theorem buildHuffmanTree_nil : buildHuffmanTree [] = .nil := by
  unfold buildHuffmanTree
  simp

/-- Claim C8: in the tree built from any text's frequency table, every
internal node's frequency is the sum of its two children's, and the
root's frequency equals the sum of all leaf frequencies, which equals
the length of the text. -/
theorem tree_weight_conservation (text : List Char) :
    freqOk (buildHuffmanTree (countFrequencies text))
    ∧ treeFreq (buildHuffmanTree (countFrequencies text))
        = leafFreqSum (buildHuffmanTree (countFrequencies text))
    ∧ leafFreqSum (buildHuffmanTree (countFrequencies text)) = text.length := by
  by_cases htext : countFrequencies text = []
  · have htnil : text = [] := countFrequencies_nil_iff text htext
    rw [htext, buildHuffmanTree_nil, htnil]
    exact ⟨trivial, rfl, rfl⟩
  · have hP : ∀ x y, (x ≠ HTree.nil ∧ freqOk x ∧ treeFreq x = leafFreqSum x)
        → (y ≠ HTree.nil ∧ freqOk y ∧ treeFreq y = leafFreqSum y)
        → (mergeNode x y ≠ HTree.nil ∧ freqOk (mergeNode x y)
            ∧ treeFreq (mergeNode x y) = leafFreqSum (mergeNode x y)) := by
      intro x y hx hy
      rcases x with _ | ⟨c1, f1, l1, r1⟩
      · exact absurd rfl hx.1
      rcases y with _ | ⟨c2, f2, l2, r2⟩
      · exact absurd rfl hy.1
      refine ⟨by simp [mergeNode], ?_, ?_⟩
      · simp only [mergeNode, freqOk]
        exact ⟨by trivial, hx.2.1, hy.2.1⟩
      · simp only [mergeNode, treeFreq, leafFreqSum]
        rw [← hx.2.2, ← hy.2.2]
        rfl
    have hf : ∀ x y, (x ≠ HTree.nil ∧ freqOk x ∧ treeFreq x = leafFreqSum x)
        → (y ≠ HTree.nil ∧ freqOk y ∧ treeFreq y = leafFreqSum y)
        → treeFreq (mergeNode x y) = treeFreq x + treeFreq y := by
      intro x y _ _
      rfl
    have hleaf : ∀ fc ∈ countFrequencies text,
        (leafNode fc ≠ HTree.nil ∧ freqOk (leafNode fc)
          ∧ treeFreq (leafNode fc) = leafFreqSum (leafNode fc)) := by
      intro fc _
      refine ⟨by simp [leafNode], trivial, rfl⟩
    have hspec := buildHuffmanTree_spec
      (fun t => t ≠ HTree.nil ∧ freqOk t ∧ treeFreq t = leafFreqSum t)
      treeFreq hP hf (countFrequencies text) htext hleaf
    refine ⟨hspec.1.2.1, hspec.1.2.2, ?_⟩
    rw [← hspec.1.2.2]
    rw [hspec.2]
    rw [List.map_map]
    have hcomp : (treeFreq ∘ leafNode) = Prod.fst := rfl
    rw [hcomp]
    exact sum_fst_countFrequencies text

/-! ### Claim C7 -/

theorem getD_take {α : Type} (l : List α) (m n : Nat) (d : α) (h : n < m) :
    (l.take m).getD n d = l.getD n d := by
  induction l generalizing m n with
  | nil => simp
  | cons a t ih =>
    cases m with
    | zero => omega
    | succ m =>
      cases n with
      | zero => simp
      | succ n =>
        simp only [List.take_succ_cons, List.getD_cons_succ]
        exact ih m n (by omega)

theorem getD_append_cons {α : Type} (l1 : List α) (x : α) (l2 : List α) (d : α) :
    (l1 ++ x :: l2).getD l1.length d = x := by
  induction l1 with
  | nil => simp
  | cons a t ih => simpa using ih

theorem isPre_ne_bit (p : List Bool) (b1 b2 : Bool) (s t : List Bool) (hb : b1 ≠ b2) :
    isPre (p ++ b1 :: s) (p ++ b2 :: t) = false := by
  unfold isPre
  rw [beq_eq_false_iff_ne]
  intro he
  have h1 : (p ++ b1 :: s).getD p.length false = b1 := getD_append_cons ..
  have hlen : p.length < (p ++ b1 :: s).length := by simp
  have h2 : ((p ++ b2 :: t).take (p ++ b1 :: s).length).getD p.length false
      = (p ++ b2 :: t).getD p.length false := getD_take _ _ _ _ hlen
  rw [← he, h1, getD_append_cons] at h2
  exact hb h2

theorem traverseCodes_code_split (t : HTree) : ∀ (code : List Bool) (e : String × List Bool),
    e ∈ traverseCodes t code → ∃ s, e.2 = code ++ s := by
  induction t with
  | nil =>
    intro code e he
    simp [traverseCodes] at he
  | node c f l r ihl ihr =>
    intro code e he
    rcases l with _ | ⟨cl, fl, ll, rl⟩
    · simp [traverseCodes] at he
      exact ⟨[], by rw [he]; simp⟩
    rcases r with _ | ⟨cr, fr, lr, rr⟩
    · simp [traverseCodes] at he
      exact ⟨[], by rw [he]; simp⟩
    · simp only [traverseCodes] at he
      rcases List.mem_append.mp he with h | h
      · obtain ⟨s, hs⟩ := ihl _ _ h
        exact ⟨false :: s, by rw [hs]; simp⟩
      · obtain ⟨s, hs⟩ := ihr _ _ h
        exact ⟨true :: s, by rw [hs]; simp⟩

theorem traverseCodes_pairwise (t : HTree) : ∀ code : List Bool,
    (traverseCodes t code).Pairwise
      (fun a b => isPre a.2 b.2 = false ∧ isPre b.2 a.2 = false) := by
  induction t with
  | nil =>
    intro code
    simp [traverseCodes]
  | node c f l r ihl ihr =>
    intro code
    rcases l with _ | ⟨cl, fl, ll, rl⟩
    · simp [traverseCodes]
    rcases r with _ | ⟨cr, fr, lr, rr⟩
    · simp [traverseCodes]
    · simp only [traverseCodes]
      rw [List.pairwise_append]
      refine ⟨ihl _, ihr _, ?_⟩
      intro a ha b hb
      obtain ⟨s, hs⟩ := traverseCodes_code_split _ _ a ha
      obtain ⟨u, hu⟩ := traverseCodes_code_split _ _ b hb
      constructor
      · rw [hs, hu]
        have h := isPre_ne_bit code false true s u (by simp)
        simpa using h
      · rw [hu, hs]
        have h := isPre_ne_bit code true false u s (by simp)
        simpa using h

theorem dictSet_cons_eq {κ α : Type} [DecidableEq κ] (k : κ) (v2 v : α)
    (rest : List (κ × α)) : dictSet ((k, v2) :: rest) k v = (k, v) :: rest := by
  simp [dictSet]

theorem dictSet_cons_ne {κ α : Type} [DecidableEq κ] (k2 k : κ) (v2 v : α)
    (rest : List (κ × α)) (h : k2 ≠ k) :
    dictSet ((k2, v2) :: rest) k v = (k2, v2) :: dictSet rest k v := by
  simp [dictSet, h]

theorem mem_dictSet {κ α : Type} [DecidableEq κ] (d : List (κ × α)) (k : κ) (v : α)
    (kv : κ × α) : kv ∈ dictSet d k v → kv ∈ d ∨ kv = (k, v) := by
  induction d with
  | nil =>
    intro h
    simp [dictSet] at h
    exact Or.inr h
  | cons e rest ih =>
    obtain ⟨k2, v2⟩ := e
    intro h
    by_cases hk : k2 = k
    · subst hk
      rw [dictSet_cons_eq] at h
      rcases List.mem_cons.mp h with h1 | h1
      · exact Or.inr h1
      · exact Or.inl (List.mem_cons_of_mem _ h1)
    · rw [dictSet_cons_ne _ _ _ _ _ hk] at h
      rcases List.mem_cons.mp h with h1 | h1
      · exact Or.inl (by rw [h1]; exact List.mem_cons_self _ _)
      · rcases ih h1 with h2 | h2
        · exact Or.inl (List.mem_cons_of_mem _ h2)
        · exact Or.inr h2

theorem mem_foldl_dictSet {κ α : Type} [DecidableEq κ] :
    ∀ (l acc : List (κ × α)) (kv : κ × α),
    kv ∈ l.foldl (fun d e => dictSet d e.1 e.2) acc → kv ∈ acc ∨ kv ∈ l := by
  intro l
  induction l with
  | nil =>
    intro acc kv h
    exact Or.inl h
  | cons e rest ih =>
    intro acc kv h
    rw [List.foldl_cons] at h
    rcases ih _ _ h with h1 | h1
    · rcases mem_dictSet _ _ _ _ h1 with h2 | h2
      · exact Or.inl h2
      · exact Or.inr (by rw [show kv = e from h2.trans (Prod.mk.eta)]; exact List.mem_cons_self _ _)
    · exact Or.inr (List.mem_cons_of_mem _ h1)

theorem mem_keys_dictSet {κ α : Type} [DecidableEq κ] (d : List (κ × α)) (k : κ) (v : α)
    (k2 : κ) : k2 ∈ (dictSet d k v).map Prod.fst ↔ k2 ∈ d.map Prod.fst ∨ k2 = k := by
  induction d with
  | nil =>
    simp [dictSet]
  | cons e rest ih =>
    obtain ⟨k3, v3⟩ := e
    by_cases hk : k3 = k
    · subst hk
      rw [dictSet_cons_eq]
      simp only [List.map_cons, List.mem_cons]
      tauto
    · rw [dictSet_cons_ne _ _ _ _ _ hk]
      simp only [List.map_cons, List.mem_cons, ih]
      tauto

theorem nodup_keys_dictSet {κ α : Type} [DecidableEq κ] (d : List (κ × α)) (k : κ) (v : α) :
    (d.map Prod.fst).Nodup → ((dictSet d k v).map Prod.fst).Nodup := by
  induction d with
  | nil =>
    intro _
    simp [dictSet]
  | cons e rest ih =>
    intro h
    obtain ⟨k2, v2⟩ := e
    simp only [List.map_cons, List.nodup_cons] at h
    by_cases hk : k2 = k
    · subst hk
      rw [dictSet_cons_eq]
      simp only [List.map_cons, List.nodup_cons]
      exact h
    · rw [dictSet_cons_ne _ _ _ _ _ hk]
      simp only [List.map_cons, List.nodup_cons]
      refine ⟨?_, ih h.2⟩
      intro hmem
      rcases (mem_keys_dictSet rest k v k2).mp hmem with h1 | h1
      · exact h.1 h1
      · exact hk h1

theorem nodup_keys_foldl_dictSet {κ α : Type} [DecidableEq κ] :
    ∀ (l acc : List (κ × α)), (acc.map Prod.fst).Nodup →
    ((l.foldl (fun d e => dictSet d e.1 e.2) acc).map Prod.fst).Nodup := by
  intro l
  induction l with
  | nil =>
    intro acc h
    exact h
  | cons e rest ih =>
    intro acc h
    rw [List.foldl_cons]
    exact ih _ (nodup_keys_dictSet acc e.1 e.2 h)

theorem getCodes_entries (t : HTree) (kv : String × List Bool) :
    kv ∈ getCodes t → kv ∈ traverseCodes t [] := by
  intro h
  rcases mem_foldl_dictSet _ _ _ h with h1 | h1
  · simp at h1
  · exact h1

theorem getCodes_nodup_keys (t : HTree) : ((getCodes t).map Prod.fst).Nodup :=
  nodup_keys_foldl_dictSet _ _ (by simp)

/-- Claim C7: in the code table derived from any tree built by
_build_huffman_tree, no code is a prefix of any other code belonging to
a different leaf. -/
theorem codes_prefix_free (freqList : List (Nat × Char)) :
    (getCodes (buildHuffmanTree freqList)).Pairwise
      (fun a b => isPre a.2 b.2 = false ∧ isPre b.2 a.2 = false) := by
  have htrav := traverseCodes_pairwise (buildHuffmanTree freqList) []
  have hnodup : (getCodes (buildHuffmanTree freqList)).Nodup :=
    (getCodes_nodup_keys _).of_map
  have hsym : Symmetric (fun a b : String × List Bool =>
      isPre a.2 b.2 = false ∧ isPre b.2 a.2 = false) := fun a b h => ⟨h.2, h.1⟩
  have hforall := htrav.forall hsym
  refine List.Pairwise.imp_of_mem ?_ hnodup
  intro a b ha hb hne
  exact hforall (getCodes_entries _ _ ha) (getCodes_entries _ _ hb) hne

/-! ### Claim C4 -/

/-- Claim C4: a binary input whose 16-byte header carries a
padding-length field outside [0, 8) or a tree-length field exceeding the
number of bytes remaining after the header makes _read_headers raise the
typed CompressionMethodError, not an unrelated or uncaught failure. -/
theorem read_headers_invalid_error (binIn : List Nat) (h16 : 16 ≤ binIn.length)
    (hbad : 8 ≤ fromBytesBE ((binIn.take 16).take 8)
      ∨ binIn.length - 16 < fromBytesBE ((binIn.take 16).drop 8)) :
    readHeaders binIn = .error (.compressionMethodError
      "Invalid header: padding_len or tree_len out of bounds. Make sure the file is a valid compressed file.") := by
  have hcond : 8 ≤ fromBytesBE ((binIn.take 16).take 8)
      ∨ (binIn.drop 16).length < fromBytesBE ((binIn.take 16).drop 8) := by
    rw [List.length_drop]
    exact hbad
  unfold readHeaders
  rw [if_pos hcond]

theorem read_headers_invalid_error_witness :
    16 ≤ ([0, 0, 0, 0, 0, 0, 0, 9, 0, 0, 0, 0, 0, 0, 0, 0] : List Nat).length
    ∧ readHeaders [0, 0, 0, 0, 0, 0, 0, 9, 0, 0, 0, 0, 0, 0, 0, 0]
      = .error (.compressionMethodError
        "Invalid header: padding_len or tree_len out of bounds. Make sure the file is a valid compressed file.") :=
  ⟨by decide, read_headers_invalid_error _ (by decide) (by decide)⟩

/-! ### Claim C10 -/

/-- Claim C10: when decompress raises any error, nothing has been
written to the text output; the sole write happens only after header
parsing, tree reconstruction and payload decoding all succeeded. -/
theorem decompress_no_partial_write (binIn : List Nat) :
    ((decompress binIn).2.isSome → (decompress binIn).1 = [])
    ∧ ((decompress binIn).2 = none → ∃ s, (decompress binIn).1 = [s]) := by
  unfold decompress
  split
  · simp
  · split
    · simp
    · split
      · simp
      · exact ⟨fun h => by simp at h, fun _ => ⟨_, rfl⟩⟩

theorem decompress_no_partial_write_witness :
    (decompress []).2.isSome ∧ (decompress []).1 = [] := by
  have hdec : decode [] [] = .error (.valueError "Invalid tree string") := by
    simp [decode, decodeTree, dtAuxP, dtAux]
  have key : decompress []
      = (match decode [] [] with
         | .error e => ([], some e)
         | .ok text => ([text], none)) := rfl
  have h2 : (decompress []).2 = some (.valueError "Invalid tree string") := by
    rw [key, hdec]
  exact ⟨by rw [h2]; rfl, (decompress_no_partial_write []).1 (by rw [h2]; rfl)⟩

/-! ### Claims C1 and C2: the degenerate inputs break the code -/

/-- Claim C1 fails on the code: compressing the single-distinct-character
text "aaaa" produces a container with an empty payload, and feeding it to
decompress writes "" rather than "aaaa"; the empty text compresses to no
output at all, on which decompress raises an uncaught ValueError instead
of writing "". -/
theorem roundtrip_degenerate_eval :
    compress "aaaa".toList = .ok [0, 0, 0, 0, 0, 0, 0, 0, 0, 0, 0, 0, 0, 0, 0, 2, 49, 97]
    ∧ decompress [0, 0, 0, 0, 0, 0, 0, 0, 0, 0, 0, 0, 0, 0, 0, 2, 49, 97] = ([""], none)
    ∧ compress ([] : List Char) = .ok []
    ∧ decompress [] = ([], some (.valueError "Invalid tree string")) := by
  refine ⟨?_, ?_, ?_, ?_⟩
  · have ht : buildHuffmanTree (countFrequencies "aaaa".toList) = .node "a" 4 .nil .nil := by
      rw [show countFrequencies "aaaa".toList = [(4, 'a')] from by decide]
      simp [buildHuffmanTree, leafNode, heappush, heappop, pySiftup,
        siftdown_stop, siftdown_go, siftupLoop_stop, buildLoop_stop, buildLoop_go]
      decide
    unfold compress
    rw [ht]
    decide
  · have h3 : decode ['1', 'a'] [] = .ok "" := by
      simp [decode, decodeTree, dtAuxP, dtAux, decodeText, decodeTextGo]
      decide
    have key : decompress [0, 0, 0, 0, 0, 0, 0, 0, 0, 0, 0, 0, 0, 0, 0, 2, 49, 97]
        = (match decode ['1', 'a'] [] with
           | .error e => ([], some e)
           | .ok text => ([text], none)) := rfl
    rw [key, h3]
  · unfold compress
    rw [show buildHuffmanTree (countFrequencies ([] : List Char)) = .nil from by
      rw [show countFrequencies ([] : List Char) = [] from by decide]
      exact buildHuffmanTree_nil]
  · have hdec : decode [] [] = .error (.valueError "Invalid tree string") := by
      simp [decode, decodeTree, dtAuxP, dtAux]
    have key : decompress []
        = (match decode [] [] with
           | .error e => ([], some e)
           | .ok text => ([text], none)) := rfl
    rw [key, hdec]

/-- Claim C2 fails on the code: for the single-distinct-character text
"aaaa" the code table assigns the character the empty bit string, a
0-bit code, not a fixed 1-bit code. -/
theorem single_char_code_empty_eval :
    getCodes (buildHuffmanTree (countFrequencies "aaaa".toList)) = [("a", [])] := by
  rw [show countFrequencies "aaaa".toList = [(4, 'a')] from by decide]
  rw [show buildHuffmanTree [(4, 'a')] = .node "a" 4 .nil .nil from by
    simp [buildHuffmanTree, leafNode, heappush, heappop, pySiftup,
      siftdown_stop, siftdown_go, siftupLoop_stop, buildLoop_stop, buildLoop_go]
    decide]
  decide

/-! ### Claim C3 -/

/-- Claim C3 counterexample: the three-character serialized tree "01a"
claims an internal node but encodes only its left child; _decode_tree
silently returns the partial tree with an absent right child instead of
failing with a structural-format error. -/
theorem decode_tree_partial_silent :
    decodeTree ['0', '1', 'a'] = .ok (.node "" 0 (.node "a" 0 .nil .nil) .nil) := by
  simp [decodeTree, dtAuxP, dtAux]
  decide

/-- Claim C3 amended: deserialization of a malformed buffer does not in
general fail with a structural-format error: a tag byte absent where a
node is expected yields an absent subtree, silently for a child (an
internal node missing its right child comes back as a partial tree), and
only for the root does _decode raise a ValueError; a leaf tag as the
final character fails with an untyped IndexError. -/
theorem decode_tree_malformed_behavior :
    decodeTree [] = .ok .nil
    ∧ decodeTree ['1'] = .error .indexError
    ∧ (∀ ch : Char, decodeTree ['0', '1', ch]
        = .ok (.node "" 0 (.node (String.singleton ch) 0 .nil .nil) .nil))
    ∧ decode [] [] = .error (.valueError "Invalid tree string") := by
  refine ⟨by simp [decodeTree, dtAuxP, dtAux], by simp [decodeTree, dtAuxP, dtAux], ?_,
    by simp [decode, decodeTree, dtAuxP, dtAux]⟩
  intro ch
  simp [decodeTree, dtAuxP, dtAux]

/-! ### Claim C6 -/

theorem natToBytesBE_length : ∀ (n v : Nat), (natToBytesBE n v).length = n := by
  intro n
  induction n with
  | zero =>
    intro v
    rfl
  | succ n ih =>
    intro v
    simp [natToBytesBE, ih]

theorem fromBytesBE_append_one (bs : List Nat) (b : Nat) :
    fromBytesBE (bs ++ [b]) = 256 * fromBytesBE bs + b := by
  unfold fromBytesBE
  rw [List.foldl_append]
  rfl

theorem fromBytesBE_natToBytesBE : ∀ (n v : Nat),
    fromBytesBE (natToBytesBE n v) = v % 256 ^ n := by
  intro n
  induction n with
  | zero =>
    intro v
    simp [natToBytesBE, fromBytesBE, Nat.mod_one]
  | succ n ih =>
    intro v
    simp only [natToBytesBE]
    rw [fromBytesBE_append_one, ih]
    have hp : (256 : Nat) ^ (n + 1) = 256 * 256 ^ n := by ring
    rw [hp, Nat.mod_mul]
    ring

theorem bitsToBytes_length : ∀ (n : Nat) (bl : List Bool), bl.length = n →
    (bitsToBytes bl).length = (bl.length + 7) / 8 := by
  intro n
  induction n using Nat.strong_induction_on with
  | _ n ih =>
    intro bl hn
    rcases bl with _ | ⟨b0, bl⟩
    · simp [bitsToBytes]
    rcases bl with _ | ⟨b1, bl⟩
    · simp [bitsToBytes]
    rcases bl with _ | ⟨b2, bl⟩
    · simp [bitsToBytes]
    rcases bl with _ | ⟨b3, bl⟩
    · simp [bitsToBytes]
    rcases bl with _ | ⟨b4, bl⟩
    · simp [bitsToBytes]
    rcases bl with _ | ⟨b5, bl⟩
    · simp [bitsToBytes]
    rcases bl with _ | ⟨b6, bl⟩
    · simp [bitsToBytes]
    rcases bl with _ | ⟨b7, bl⟩
    · simp [bitsToBytes]
    · have hrec := ih bl.length (by simp at hn; omega) bl rfl
      simp only [bitsToBytes, List.length_cons]
      rw [hrec]
      omega

theorem take_len_append {α : Type} (l1 l2 : List α) (n : Nat) (h : l1.length = n) :
    (l1 ++ l2).take n = l1 := by
  rw [← h]
  exact List.take_left l1 l2

theorem drop_len_append {α : Type} (l1 l2 : List α) (n : Nat) (h : l1.length = n) :
    (l1 ++ l2).drop n = l2 := by
  rw [← h]
  exact List.drop_left l1 l2

theorem countFrequencies_ne_nil (text : List Char) (h : text ≠ []) :
    countFrequencies text ≠ [] :=
  fun hc => h (countFrequencies_nil_iff text hc)

theorem buildHuffmanTree_ne_nil (fl : List (Nat × Char)) (h : fl ≠ []) :
    buildHuffmanTree fl ≠ .nil := by
  have hspec := buildHuffmanTree_spec (fun t => t ≠ HTree.nil) (fun _ => (0 : Nat))
    (fun x y _ _ => by simp [mergeNode]) (fun x y _ _ => rfl) fl h
    (fun fc _ => by simp [leafNode])
  exact hspec.1

theorem padBits_lt (n : Nat) : padBits n < 8 := by
  unfold padBits
  omega

/-- Claim C6: for a non-empty text, in any output compress produces,
eight times the payload byte length minus the padding-length field of
the header equals the bit length of the concatenation of the
per-character codes of the text (the bit string _encode_text builds). -/
theorem header_bit_accounting (text : List Char) (out : List Nat) (hne : text ≠ [])
    (hok : compress text = .ok out) :
    ∃ bits, encodeText text (getCodes (buildHuffmanTree (countFrequencies text))) = .ok bits
      ∧ 8 * (out.length - 16 - fromBytesBE ((out.drop 8).take 8))
          - fromBytesBE (out.take 8) = bits.length := by
  unfold compress at hok
  split at hok
  · rename_i htree
    exact absurd htree (buildHuffmanTree_ne_nil _ (countFrequencies_ne_nil text hne))
  · rename_i c f l r htree
    split at hok
    · simp at hok
    · rename_i bits henc
      split at hok
      · simp at hok
      · rename_i tb hent
        split at hok
        · simp at hok
        · rename_i tli ht1
          split at hok
          · simp at hok
          · rename_i pli ht2
            injection hok with hout
            unfold toBytesBE at ht1 ht2
            split at ht1
            · rename_i htblt
              injection ht1 with htli
              split at ht2
              · rename_i hpblt
                injection ht2 with hpli
                refine ⟨bits, by rw [htree]; exact henc, ?_⟩
                subst hout
                rw [← htli, ← hpli]
                rw [List.append_assoc, List.append_assoc]
                rw [take_len_append _ _ 8 (natToBytesBE_length 8 _)]
                rw [drop_len_append _ _ 8 (natToBytesBE_length 8 _)]
                rw [take_len_append _ _ 8 (natToBytesBE_length 8 _)]
                rw [fromBytesBE_natToBytesBE, fromBytesBE_natToBytesBE]
                rw [Nat.mod_eq_of_lt htblt]
                rw [Nat.mod_eq_of_lt (lt_trans (padBits_lt bits.length) (by norm_num))]
                simp only [List.length_append, natToBytesBE_length]
                rw [bitsToBytes_length bits.length bits rfl]
                unfold padBits
                omega
              · exact Except.noConfusion ht2
            · exact Except.noConfusion ht1

theorem header_bit_accounting_witness :
    ("ab".toList ≠ []
      ∧ compress "ab".toList
        = .ok [0, 0, 0, 0, 0, 0, 0, 6, 0, 0, 0, 0, 0, 0, 0, 5, 48, 49, 98, 49, 97, 128])
    ∧ (∃ bits, encodeText "ab".toList
          (getCodes (buildHuffmanTree (countFrequencies "ab".toList))) = .ok bits
        ∧ 8 * (([0, 0, 0, 0, 0, 0, 0, 6, 0, 0, 0, 0, 0, 0, 0, 5, 48, 49, 98, 49, 97, 128]
              : List Nat).length - 16
            - fromBytesBE ((([0, 0, 0, 0, 0, 0, 0, 6, 0, 0, 0, 0, 0, 0, 0, 5, 48, 49, 98, 49, 97,
              128] : List Nat).drop 8).take 8))
          - fromBytesBE (([0, 0, 0, 0, 0, 0, 0, 6, 0, 0, 0, 0, 0, 0, 0, 5, 48, 49, 98, 49, 97, 128]
              : List Nat).take 8) = bits.length) := by
  have ht : buildHuffmanTree (countFrequencies "ab".toList)
      = .node "ba" 2 (.node "b" 1 .nil .nil) (.node "a" 1 .nil .nil) := by
    rw [show countFrequencies "ab".toList = [(1, 'b'), (1, 'a')] from by decide]
    simp [buildHuffmanTree, leafNode, heappush, heappop, pySiftup, mergeNode,
      siftdown_stop, siftdown_go, siftupLoop_stop, buildLoop_stop, buildLoop_go,
      nodeLt, treeFreq, charStr]
    decide
  have hcp : compress "ab".toList
      = .ok [0, 0, 0, 0, 0, 0, 0, 6, 0, 0, 0, 0, 0, 0, 0, 5, 48, 49, 98, 49, 97, 128] := by
    unfold compress
    rw [ht]
    decide
  exact ⟨⟨by decide, hcp⟩, header_bit_accounting _ _ (by decide) hcp⟩

/-! ### Claim C5: UTF-8 round trip -/

theorem char_valid_toNat (c : Char) :
    c.toNat < 0xD800 ∨ (0xDFFF < c.toNat ∧ c.toNat < 0x110000) := c.valid

theorem utf8Decode_ascii (b0 : Nat) (rest : List Nat) (h : b0 < 0x80) :
    utf8Decode (b0 :: rest) = (utf8Decode rest).map (Char.ofNat b0 :: ·) := by
  rcases rest with _ | ⟨b1, _ | ⟨b2, _ | ⟨b3, r⟩⟩⟩
  · simp [utf8Decode, h, Except.map]
  · simp only [utf8Decode]
    rw [if_pos h]
  · simp only [utf8Decode]
    rw [if_pos h]
  · simp only [utf8Decode]
    rw [if_pos h]

theorem utf8Decode_two (b0 b1 : Nat) (rest : List Nat) (h0 : ¬ b0 < 0x80)
    (h1 : ¬ b0 < 0xC2) (h2 : b0 < 0xE0) (hg : 0x80 ≤ b1 ∧ b1 < 0xC0) :
    utf8Decode (b0 :: b1 :: rest) = (utf8Decode rest).map (utf8Cp2 b0 b1 :: ·) := by
  rcases rest with _ | ⟨b2, _ | ⟨b3, r⟩⟩
  · simp only [utf8Decode]
    rw [if_neg h0, if_neg h1, if_pos h2, if_pos hg]
    rfl
  · simp only [utf8Decode]
    rw [if_neg h0, if_neg h1, if_pos h2, if_pos hg]
  · simp only [utf8Decode]
    rw [if_neg h0, if_neg h1, if_pos h2, if_pos hg]

theorem utf8Decode_three (b0 b1 b2 : Nat) (rest : List Nat) (h0 : ¬ b0 < 0x80)
    (h1 : ¬ b0 < 0xC2) (h2 : ¬ b0 < 0xE0) (h3 : b0 < 0xF0)
    (hg : (if b0 = 0xE0 then 0xA0 else 0x80) ≤ b1 ∧
      b1 < (if b0 = 0xED then 0xA0 else 0xC0) ∧ 0x80 ≤ b2 ∧ b2 < 0xC0) :
    utf8Decode (b0 :: b1 :: b2 :: rest) = (utf8Decode rest).map (utf8Cp3 b0 b1 b2 :: ·) := by
  rcases rest with _ | ⟨b3, r⟩
  · simp only [utf8Decode]
    rw [if_neg h0, if_neg h1, if_neg h2, if_pos h3, if_pos hg]
    rfl
  · simp only [utf8Decode]
    rw [if_neg h0, if_neg h1, if_neg h2, if_pos h3, if_pos hg]

theorem utf8Decode_four (b0 b1 b2 b3 : Nat) (rest : List Nat) (h0 : ¬ b0 < 0x80)
    (h1 : ¬ b0 < 0xC2) (h2 : ¬ b0 < 0xE0) (h3 : ¬ b0 < 0xF0) (h4 : b0 < 0xF5)
    (hg : (if b0 = 0xF0 then 0x90 else 0x80) ≤ b1 ∧
      b1 < (if b0 = 0xF4 then 0x90 else 0xC0) ∧
      0x80 ≤ b2 ∧ b2 < 0xC0 ∧ 0x80 ≤ b3 ∧ b3 < 0xC0) :
    utf8Decode (b0 :: b1 :: b2 :: b3 :: rest)
      = (utf8Decode rest).map (utf8Cp4 b0 b1 b2 b3 :: ·) := by
  simp only [utf8Decode]
  rw [if_neg h0, if_neg h1, if_neg h2, if_neg h3, if_pos h4, if_pos hg]

theorem utf8Decode_encodeChar (c : Char) (rest : List Nat) :
    utf8Decode (utf8EncodeChar c ++ rest) = (utf8Decode rest).map (c :: ·) := by
  have hval := char_valid_toNat c
  unfold utf8EncodeChar
  by_cases h1 : c.toNat < 0x80
  · rw [if_pos h1]
    show utf8Decode (c.toNat :: rest) = _
    rw [utf8Decode_ascii _ _ h1, Char.ofNat_toNat]
  · rw [if_neg h1]
    by_cases h2 : c.toNat < 0x800
    · rw [if_pos h2]
      show utf8Decode ((0xC0 + c.toNat / 64) :: (0x80 + c.toNat % 64) :: rest) = _
      rw [utf8Decode_two _ _ _ (by omega) (by omega) (by omega) ⟨by omega, by omega⟩]
      have harg : utf8Cp2 (0xC0 + c.toNat / 64) (0x80 + c.toNat % 64) = c := by
        unfold utf8Cp2
        rw [show (0xC0 + c.toNat / 64 - 0xC0) * 64 + (0x80 + c.toNat % 64 - 0x80)
          = c.toNat from by omega]
        exact Char.ofNat_toNat c
      rw [harg]
    · rw [if_neg h2]
      by_cases h3 : c.toNat < 0x10000
      · rw [if_pos h3]
        show utf8Decode ((0xE0 + c.toNat / 4096) :: (0x80 + c.toNat / 64 % 64)
          :: (0x80 + c.toNat % 64) :: rest) = _
        have hg1 : (if 0xE0 + c.toNat / 4096 = 0xE0 then 0xA0 else 0x80)
            ≤ 0x80 + c.toNat / 64 % 64 := by
          split
          · omega
          · omega
        have hg2 : 0x80 + c.toNat / 64 % 64
            < (if 0xE0 + c.toNat / 4096 = 0xED then 0xA0 else 0xC0) := by
          split
          · rcases hval with hv | hv
            · omega
            · omega
          · omega
        rw [utf8Decode_three _ _ _ _ (by omega) (by omega) (by omega) (by omega)
          ⟨hg1, hg2, by omega, by omega⟩]
        have harg : utf8Cp3 (0xE0 + c.toNat / 4096) (0x80 + c.toNat / 64 % 64)
            (0x80 + c.toNat % 64) = c := by
          unfold utf8Cp3
          rw [show (0xE0 + c.toNat / 4096 - 0xE0) * 4096
            + (0x80 + c.toNat / 64 % 64 - 0x80) * 64 + (0x80 + c.toNat % 64 - 0x80)
            = c.toNat from by omega]
          exact Char.ofNat_toNat c
        rw [harg]
      · rw [if_neg h3]
        have h4 : c.toNat < 0x110000 := by
          rcases hval with hv | hv
          · omega
          · omega
        show utf8Decode ((0xF0 + c.toNat / 0x40000) :: (0x80 + c.toNat / 4096 % 64)
          :: (0x80 + c.toNat / 64 % 64) :: (0x80 + c.toNat % 64) :: rest) = _
        have hg1 : (if 0xF0 + c.toNat / 0x40000 = 0xF0 then 0x90 else 0x80)
            ≤ 0x80 + c.toNat / 4096 % 64 := by
          split
          · omega
          · omega
        have hg2 : 0x80 + c.toNat / 4096 % 64
            < (if 0xF0 + c.toNat / 0x40000 = 0xF4 then 0x90 else 0xC0) := by
          split
          · omega
          · omega
        rw [utf8Decode_four _ _ _ _ _ (by omega) (by omega) (by omega) (by omega) (by omega)
          ⟨hg1, hg2, by omega, by omega, by omega, by omega⟩]
        have harg : utf8Cp4 (0xF0 + c.toNat / 0x40000) (0x80 + c.toNat / 4096 % 64)
            (0x80 + c.toNat / 64 % 64) (0x80 + c.toNat % 64) = c := by
          unfold utf8Cp4
          rw [show (0xF0 + c.toNat / 0x40000 - 0xF0) * 0x40000
            + (0x80 + c.toNat / 4096 % 64 - 0x80) * 4096
            + (0x80 + c.toNat / 64 % 64 - 0x80) * 64 + (0x80 + c.toNat % 64 - 0x80)
            = c.toNat from by omega]
          exact Char.ofNat_toNat c
        rw [harg]

theorem utf8Decode_encodeChars (cs : List Char) (rest : List Nat) :
    utf8Decode (utf8EncodeChars cs ++ rest) = (utf8Decode rest).map (cs ++ ·) := by
  induction cs with
  | nil =>
    cases h : utf8Decode rest <;> simp [utf8EncodeChars, h, Except.map]
  | cons c cs ih =>
    show utf8Decode ((utf8EncodeChar c ++ utf8EncodeChars cs) ++ rest) = _
    rw [List.append_assoc, utf8Decode_encodeChar, ih]
    cases h : utf8Decode rest <;> simp [Except.map]

theorem utf8Decode_encodeChars_nil (cs : List Char) :
    utf8Decode (utf8EncodeChars cs) = .ok cs := by
  have h := utf8Decode_encodeChars cs []
  rw [List.append_nil] at h
  rw [h]
  simp [utf8Decode, Except.map]

theorem utf8EncodeChars_append (a b : List Char) :
    utf8EncodeChars (a ++ b) = utf8EncodeChars a ++ utf8EncodeChars b := by
  induction a with
  | nil => simp [utf8EncodeChars]
  | cons c cs ih =>
    show utf8EncodeChar c ++ utf8EncodeChars (cs ++ b) = _
    rw [ih]
    simp [utf8EncodeChars]

theorem encodeTree_wf : ∀ (t : HTree), wfTree t →
    encodeTree t = .ok (utf8EncodeChars (treeChars t))
  | .nil, hw => absurd hw (by simp [wfTree])
  | .node c f .nil .nil, _ => by
    show Except.ok (0x31 :: utf8EncodeChars c.data)
      = .ok (utf8EncodeChars ('1' :: c.data))
    show Except.ok (0x31 :: utf8EncodeChars c.data)
      = .ok (utf8EncodeChar '1' ++ utf8EncodeChars c.data)
    rfl
  | .node c f .nil (.node c2 f2 l2 r2), hw => absurd hw.1 (by simp [wfTree])
  | .node c f (.node c2 f2 l2 r2) .nil, hw => absurd hw.2 (by simp [wfTree])
  | .node c f (.node cl fl ll rl) (.node cr fr lr rr), hw => by
    have ihl := encodeTree_wf (.node cl fl ll rl) hw.1
    have ihr := encodeTree_wf (.node cr fr lr rr) hw.2
    show (match encodeTree (.node cl fl ll rl) with
      | Except.error e => Except.error e
      | Except.ok lb =>
        match encodeTree (.node cr fr lr rr) with
        | Except.error e => Except.error e
        | Except.ok rb => (Except.ok (0x30 :: (lb ++ rb)) : Except PyError (List Nat))) = _
    rw [ihl, ihr]
    show Except.ok (0x30 :: (utf8EncodeChars (treeChars (.node cl fl ll rl))
        ++ utf8EncodeChars (treeChars (.node cr fr lr rr))))
      = .ok (utf8EncodeChars
        ('0' :: (treeChars (.node cl fl ll rl) ++ treeChars (.node cr fr lr rr))))
    rw [show utf8EncodeChars
        ('0' :: (treeChars (.node cl fl ll rl) ++ treeChars (.node cr fr lr rr)))
      = utf8EncodeChar '0' ++ utf8EncodeChars
        (treeChars (.node cl fl ll rl) ++ treeChars (.node cr fr lr rr)) from rfl]
    rw [utf8EncodeChars_append]
    rfl

theorem dtAux_cons (c : Char) (rest : List Char) :
    dtAux (c :: rest) =
      (if c = '1' then
        match rest with
        | [] => Except.error PyError.indexError
        | ch :: rest2 =>
          Except.ok (HTree.node (String.singleton ch) 0 HTree.nil HTree.nil,
            ⟨rest2, by simp only [List.length_cons]; omega⟩)
      else
        match dtAux rest with
        | Except.error e => Except.error e
        | Except.ok (left, ⟨r1, h1⟩) =>
          match dtAux r1 with
          | Except.error e => Except.error e
          | Except.ok (rt, ⟨r2, h2⟩) =>
            Except.ok (HTree.node "" 0 left rt,
              ⟨r2, by simp only [List.length_cons]; omega⟩)) := by
  conv_lhs => rw [dtAux.eq_def]

theorem dtAux_treeChars : ∀ (t : HTree), wfTree t → ∀ (rest : List Char)
    (hb : rest.length ≤ (treeChars t ++ rest).length),
    dtAux (treeChars t ++ rest) = .ok (stripT t, ⟨rest, hb⟩)
  | .nil, hw, _, _ => absurd hw (by simp [wfTree])
  | .node c f .nil .nil, hw, rest, hb => by
    have hw1 : c.length = 1 := hw
    obtain ⟨ch, hch⟩ : ∃ ch, c.data = [ch] :=
      List.length_eq_one.mp (show c.data.length = 1 from hw1)
    have hcs : c = String.singleton ch := String.ext (by rw [hch]; rfl)
    revert hb
    show ∀ hb, dtAux ('1' :: c.data ++ rest)
      = .ok (.node c 0 .nil .nil, ⟨rest, hb⟩)
    rw [hch, List.cons_append, List.singleton_append]
    intro hb
    rw [dtAux_cons, if_pos rfl, hcs]
  | .node c f .nil (.node c2 f2 l2 r2), hw, _, _ => absurd hw.1 (by simp [wfTree])
  | .node c f (.node c2 f2 l2 r2) .nil, hw, _, _ => absurd hw.2 (by simp [wfTree])
  | .node c f (.node cl fl ll rl) (.node cr fr lr rr), hw, rest, hb => by
    have hb1 : (treeChars (.node cr fr lr rr) ++ rest).length
        ≤ (treeChars (.node cl fl ll rl) ++ (treeChars (.node cr fr lr rr) ++ rest)).length := by
      simp
    have hb2 : rest.length ≤ (treeChars (.node cr fr lr rr) ++ rest).length := by
      simp
    have h1 := dtAux_treeChars (.node cl fl ll rl) hw.1
      (treeChars (.node cr fr lr rr) ++ rest) hb1
    have h2 := dtAux_treeChars (.node cr fr lr rr) hw.2 rest hb2
    revert hb
    show ∀ hb, dtAux ('0' :: (treeChars (.node cl fl ll rl)
        ++ treeChars (.node cr fr lr rr)) ++ rest)
      = .ok (.node "" 0 (stripT (.node cl fl ll rl)) (stripT (.node cr fr lr rr)), ⟨rest, hb⟩)
    rw [List.cons_append, List.append_assoc]
    intro hb
    rw [dtAux_cons, if_neg (by decide), h1]
    dsimp only []
    rw [h2]

theorem decodeTree_wf (t : HTree) (hw : wfTree t) :
    decodeTree (treeChars t) = .ok (stripT t) := by
  have hb : ([] : List Char).length ≤ (treeChars t ++ []).length := by simp
  have h := dtAux_treeChars t hw [] hb
  conv_lhs => rw [show treeChars t = treeChars t ++ [] from (List.append_nil _).symm]
  simp only [decodeTree, dtAuxP, h]

theorem sameShape_stripT : ∀ (t : HTree), wfTree t → sameShape t (stripT t) = true
  | .nil, hw => absurd hw (by simp [wfTree])
  | .node c f .nil .nil, _ => by
    show (c == c) = true
    simp
  | .node c f .nil (.node c2 f2 l2 r2), hw => absurd hw.1 (by simp [wfTree])
  | .node c f (.node c2 f2 l2 r2) .nil, hw => absurd hw.2 (by simp [wfTree])
  | .node c f (.node cl fl ll rl) (.node cr fr lr rr), hw => by
    have ihl := sameShape_stripT (.node cl fl ll rl) hw.1
    have ihr := sameShape_stripT (.node cr fr lr rr) hw.2
    show (sameShape (.node cl fl ll rl) (stripT (.node cl fl ll rl))
      && sameShape (.node cr fr lr rr) (stripT (.node cr fr lr rr))) = true
    rw [ihl, ihr]
    rfl

theorem wfTree_mergeNode : ∀ (x y : HTree), wfTree x → wfTree y → wfTree (mergeNode x y)
  | .nil, _, hx, _ => absurd hx (by simp [wfTree])
  | _, .nil, _, hy => absurd hy (by simp [wfTree])
  | .node cx fx lx rx, .node cy fy ly ry, hx, hy => ⟨hx, hy⟩

theorem wfTree_leafNode (fc : Nat × Char) : wfTree (leafNode fc) := by
  show (String.singleton fc.2).length = 1
  rfl

theorem buildHuffmanTree_wf (freqList : List (Nat × Char)) (hne : freqList ≠ []) :
    wfTree (buildHuffmanTree freqList) :=
  (buildHuffmanTree_spec wfTree (fun _ => (0 : Nat)) wfTree_mergeNode
    (fun _ _ _ _ => rfl) freqList hne (fun fc _ => wfTree_leafNode fc)).1

/-- Claim C5: for any Huffman tree built from a non-empty frequency
list, serializing it with _encode_tree, decoding the bytes as UTF-8 and
deserializing with _decode_tree succeeds and yields a tree with the same
branching structure and the same characters at corresponding leaves. -/
theorem tree_serialize_roundtrip (freqList : List (Nat × Char)) (hne : freqList ≠ []) :
    ∃ (bytes : List Nat) (decoded : List Char) (t2 : HTree),
      encodeTree (buildHuffmanTree freqList) = .ok bytes ∧
      utf8Decode bytes = .ok decoded ∧
      decodeTree decoded = .ok t2 ∧
      sameShape (buildHuffmanTree freqList) t2 = true := by
  have hw := buildHuffmanTree_wf freqList hne
  refine ⟨utf8EncodeChars (treeChars (buildHuffmanTree freqList)),
    treeChars (buildHuffmanTree freqList), stripT (buildHuffmanTree freqList),
    encodeTree_wf _ hw, utf8Decode_encodeChars_nil _, decodeTree_wf _ hw,
    sameShape_stripT _ hw⟩

theorem tree_serialize_roundtrip_witness :
    [(2, 'a'), (1, 'b')] ≠ ([] : List (Nat × Char)) ∧
    ∃ (bytes : List Nat) (decoded : List Char) (t2 : HTree),
      encodeTree (buildHuffmanTree [(2, 'a'), (1, 'b')]) = .ok bytes ∧
      utf8Decode bytes = .ok decoded ∧
      decodeTree decoded = .ok t2 ∧
      sameShape (buildHuffmanTree [(2, 'a'), (1, 'b')]) t2 = true :=
  ⟨by decide, tree_serialize_roundtrip [(2, 'a'), (1, 'b')] (by decide)⟩

end Huffman
